import Mathlib

/-!
Verification development for the GNS3 GUI HTTP client
(src/gns3/http_client.py).

The embedding works over strings represented as lists of characters.
External collaborators (the Python standard library json codec, the
ipaddress IPv6 validator, the version parsing utility and the Qt
transport) are modelled as explicit Lean functions or parameters; the
json codec is modelled on the sublanguage of JSON generated by objects,
double-quoted strings without escapes and non-negative decimal integers,
which is the fragment the client's own protocol traffic uses.
-/

/-- Strings as lists of characters. -/
abbrev Str := List Char

/-- Whitespace characters stripped by the download-progress loop
(lstrip with " \r\n\t") and by the JSON grammar. -/
def isWs (c : Char) : Bool :=
  c = ' ' || c = '\r' || c = '\n' || c = '\t'

/-- Whitespace set of the body-content test in the success branch of
response processing; the source strips " \n\t" there, without the
carriage return. -/
def isWs2 (c : Char) : Bool :=
  c = ' ' || c = '\n' || c = '\t'

/-- Decimal digit test. -/
def isDigit (c : Char) : Bool := '0' ≤ c && c ≤ '9'

/-- Left strip of whitespace, modelling str.lstrip(" \r\n\t"). -/
def lstrip (s : Str) : Str := s.dropWhile isWs

/-- Value of a big-endian list of decimal digit characters. -/
def digitsVal (ds : Str) : Nat := ds.foldl (fun a c => 10 * a + (c.toNat - 48)) 0

/-- Fueled big-endian decimal digit writer; the fuel only needs to exceed
the number of digits. -/
def encNumCore : Nat → Nat → Str
  | 0, _ => []
  | fuel + 1, n =>
    if n = 0 then [] else encNumCore fuel (n / 10) ++ [Nat.digitChar (n % 10)]

/-- Decimal representation of a natural number (big endian), modelling
Python str on a non-negative int and the json number output. -/
def encNum (n : Nat) : Str :=
  if n = 0 then ['0'] else encNumCore (n + 1) n

mutual

/-- JSON values of the modelled fragment: non-negative integers,
strings without escapes, and objects. -/
inductive JVal where
  | jnum : Nat → JVal
  | jstr : Str → JVal
  | jobj : JFields → JVal
deriving DecidableEq

/-- Field list of a JSON object, in textual order. -/
inductive JFields where
  | fnil : JFields
  | fcons : Str → JVal → JFields → JFields
deriving DecidableEq

end

/-- Characters admissible inside modelled JSON strings: printable ASCII
other than the double quote and the backslash, so that the encoder needs
no escapes and the default ensure-ascii output of the Python encoder
coincides with the character sequence. -/
def okChar (c : Char) : Bool :=
  0x20 ≤ c.toNat && c.toNat ≤ 0x7e && c ≠ '"' && c ≠ '\\'

mutual

/-- Validity of a modelled JSON value: all string content is plain
printable ASCII. -/
def JVal.valid : JVal → Bool
  | .jnum _ => true
  | .jstr s => s.all okChar
  | .jobj fs => JFields.valid fs

/-- Validity of an object field list. -/
def JFields.valid : JFields → Bool
  | .fnil => true
  | .fcons k v fs => k.all okChar && JVal.valid v && JFields.valid fs

end

mutual

/-- Serialization of a modelled JSON value, matching Python json.dumps
with its default separators (", " between items, ": " after keys). -/
def JVal.enc : JVal → Str
  | .jnum n => encNum n
  | .jstr s => '"' :: s ++ ['"']
  | .jobj fs => '\x7b' :: JFields.encInner fs ++ ['\x7d']

/-- Serialization of the inside of an object (between the braces). -/
def JFields.encInner : JFields → Str
  | .fnil => []
  | .fcons k v .fnil => '"' :: k ++ '"' :: ':' :: ' ' :: JVal.enc v
  | .fcons k v (.fcons k2 v2 fs) =>
    '"' :: k ++ '"' :: ':' :: ' ' :: JVal.enc v ++
      ',' :: ' ' :: JFields.encInner (.fcons k2 v2 fs)

end

/-- Consume one expected leading character. -/
def expectChar (c : Char) : Str → Option Str
  | [] => none
  | d :: t => if d = c then some t else none

/-- Scan of a JSON string body after the opening quote: returns the
content up to the next double quote and the remainder after it. -/
def scanStr : Str → Option (Str × Str)
  | [] => none
  | c :: rest =>
    if c = '"' then some ([], rest)
    else
      match scanStr rest with
      | some (content, rem) => some (c :: content, rem)
      | none => none

mutual

/-- Fueled model of json.JSONDecoder().raw_decode on the modelled
fragment: decodes one JSON value from the very front of the input (no
leading whitespace allowed) and returns it with the undecoded remainder.
Numbers follow the JSON grammar in that a leading zero ends the number
immediately. -/
def parseVal : Nat → Str → Option (JVal × Str)
  | 0, _ => none
  | _ + 1, [] => none
  | fuel + 1, c :: s =>
    if c = '0' then some (.jnum 0, s)
    else if isDigit c then
      some (.jnum (digitsVal ((c :: s).takeWhile isDigit)), (c :: s).dropWhile isDigit)
    else if c = '"' then
      match scanStr s with
      | some (content, rem) => some (.jstr content, rem)
      | none => none
    else if c = '\x7b' then
      match expectChar '\x7d' (lstrip s) with
      | some rem => some (.jobj .fnil, rem)
      | none =>
        match parseFields fuel (lstrip s) with
        | some (fs, rem) => some (.jobj fs, rem)
        | none => none
    else none

/-- Fueled parser for a non-empty object field sequence including the
closing brace, starting at the first key. -/
def parseFields : Nat → Str → Option (JFields × Str)
  | 0, _ => none
  | fuel + 1, s =>
    match expectChar '"' s with
    | none => none
    | some s1 =>
      match scanStr s1 with
      | none => none
      | some (k, s2) =>
        match expectChar ':' (lstrip s2) with
        | none => none
        | some s4 =>
          match parseVal fuel (lstrip s4) with
          | none => none
          | some (v, s6) =>
            match expectChar '\x7d' (lstrip s6) with
            | some s8 => some (.fcons k v .fnil, s8)
            | none =>
              match expectChar ',' (lstrip s6) with
              | none => none
              | some s8 =>
                match parseFields fuel (lstrip s8) with
                | none => none
                | some (fs, s9) => some (.fcons k v fs, s9)

end

/-- Model of raw_decode: one value from the front, with enough fuel for
the whole input. -/
def rawDecode (s : Str) : Option (JVal × Str) := parseVal (s.length + 1) s

/-- Model of json.loads: a single document, with surrounding whitespace
permitted and nothing else trailing. -/
def loads (s : Str) : Option JVal :=
  match rawDecode (lstrip s) with
  | some (v, rest) => if rest.all isWs then some v else none
  | none => none

/-- Content type header value for JSON payloads. -/
def jsonCT : Str := "application/json".toList

/-- Key of the version field of the bootstrap body. -/
def versionKey : Str := "version".toList

/-- Key of the local field of the bootstrap body. -/
def localKey : Str := "local".toList

/-- Key of the fingerprint field of a 400 body. -/
def pathKey : Str := "path".toList

/-- Lookup of an object key, with the last occurrence winning, matching
the Python dict produced by the json decoder for duplicate keys. -/
def fieldsLookupLast (k : Str) : JFields → Option JVal
  | .fnil => none
  | .fcons k2 v fs =>
    match fieldsLookupLast k fs with
    | some r => some r
    | none => if k2 = k then some v else none

/-!
Response classifier (_processResponse, src/gns3/http_client.py lines
451-530). The Qt reply is abstracted to the data the handler reads from
it: the transport error code (0 is NoError), the transport error text,
the HTTP status attribute, the body after UTF-8 decoding and NUL
stripping (none when decoding raised), and the content-type header.
-/

/-- Data the completion handler reads from a finished Qt reply. -/
structure Reply where
  error : Nat
  errorString : Str
  status : Nat
  body : Option Str
  contentType : Option Str
deriving DecidableEq

/-- One invocation of the user callback: err carries error=True and the
first positional argument; ok carries error unset plus the raw_body
keyword argument. -/
inductive CbCall where
  | err : JVal → CbCall
  | ok : JVal → Option Str → CbCall
deriving DecidableEq

/-- The one-key message dictionary passed on generic errors. -/
def msgObj (m : Str) : JVal := .jobj (.fcons ("message".toList) (.jstr m) .fnil)

/-- The HttpBadRequest exception raised after a 400 completion: the raw
body and, when extractable, the fingerprint from the body's path key. -/
structure BadReq where
  body : Option Str
  fingerprint : Option JVal
deriving DecidableEq

/-- How the completion handler terminates: normally (with an optional
HttpBadRequest raised at the end) or with an uncaught exception escaping
the handler. -/
inductive Outcome where
  | done : Option BadReq → Outcome
  | exn : Outcome
deriving DecidableEq

/-- Result of one completion: the new connected flag, the callback
invocations in order, and the termination mode. -/
structure ProcResult where
  connected : Bool
  calls : List CbCall
  outcome : Outcome
deriving DecidableEq

/-- Fingerprint extraction of the 400 handler: json.loads of the body,
then the path item; any failure (missing body, parse failure, non-dict
value, missing key) yields none and the generic bad request. -/
def extractFingerprint : Option Str → Option JVal
  | none => none
  | some b =>
    match loads b with
    | some (.jobj fs) => fieldsLookupLast pathKey fs
    | _ => none

/-- The HttpBadRequest value built at the end of a 400 completion. -/
def mkBadReq (body : Option Str) : BadReq := ⟨body, extractFingerprint body⟩

/-- First positional callback argument in the transport-error branch
with an HTTP response present (lines 486-495): a missing, empty or
non-JSON body gives the generic message, a parse failure falls back to
the generic message, otherwise the parsed body is passed. -/
def errorBranchArg (r : Reply) : JVal :=
  match r.body with
  | none => msgObj r.errorString
  | some b =>
    if b = [] ∨ r.contentType ≠ some jsonCT then msgObj r.errorString
    else
      match loads b with
      | some j => j
      | none => msgObj r.errorString

/-- Body-dependent part of the success branch (lines 512-515): when the
body is present, not whitespace-only and labelled JSON it is parsed with
no exception handler (none here means the ValueError escapes), otherwise
the parameters default to the empty dict. -/
def successParams (r : Reply) : Option JVal :=
  match r.body with
  | none => some (.jobj .fnil)
  | some b =>
    if (¬ b.all isWs2) ∧ r.contentType = some jsonCT then loads b
    else some (.jobj .fnil)

/-- Logging path of the transport-error branch when no callback is
configured (lines 496-501): json.loads(None) or indexing a non-dict
parse result raises a TypeError that the except clause does not catch. -/
def errorBranchNoCb (r : Reply) : Outcome :=
  match r.body with
  | none => .exn
  | some b =>
    match loads b with
    | some (.jobj _) => .done (if r.status = 400 then some (mkBadReq r.body) else none)
    | some _ => .exn
    | none => .done (if r.status = 400 then some (mkBadReq r.body) else none)

/-- Model of _processResponse: the client's connected flag before the
completion, whether a callback is configured, the ignore_errors flag and
the reply data determine the callback invocations, the new connected
flag and the termination mode. -/
def processResponse (connected0 : Bool) (cbPresent : Bool) (ignoreErrors : Bool)
    (r : Reply) : ProcResult :=
  if r.error ≠ 0 then
    if r.error < 200 then
      if ignoreErrors then ⟨connected0, [], .done none⟩
      else ⟨false, (if cbPresent then [.err (msgObj r.errorString)] else []), .done none⟩
    else
      if cbPresent then
        ⟨connected0, [.err (errorBranchArg r)],
         .done (if r.status = 400 then some (mkBadReq r.body) else none)⟩
      else ⟨connected0, [], errorBranchNoCb r⟩
  else
    match successParams r with
    | none => ⟨connected0, [], .exn⟩
    | some params =>
      ⟨connected0,
       (if cbPresent then
          if 400 ≤ r.status then [.err params] else [.ok params r.body]
        else []),
       .done (if r.status = 400 then some (mkBadReq r.body) else none)⟩

/-!
Handshake validation (_callbackConnect, lines 241-281). The client
version string and the 4th component of the client version tuple come
from the version module outside this file's source; the version parser
is the external parse_version utility, taken as a parameter.
-/

/-- Outcome of the bootstrap-response validation. -/
inductive ConnectOutcome where
  | connectionError
  | protocolMismatch
  | versionMismatch
  | proceed : Bool → ConnectOutcome
  | crash
deriving DecidableEq

/-- Model of the validation part of _callbackConnect. The proceed flag
records whether the non-fatal compatibility warning was logged; crash
marks parse_version applied to a non-string version value (an uncaught
TypeError). -/
def callbackConnect (error : Bool) (params : JFields) (clientVersion : Str)
    (clientInfo3 : Nat) (pv : Str → List Nat) : ConnectOutcome :=
  if error then .connectionError
  else if (fieldsLookupLast versionKey params).isNone ∨
          (fieldsLookupLast localKey params).isNone then .protocolMismatch
  else
    match fieldsLookupLast versionKey params with
    | some (.jstr sv) =>
      if sv = clientVersion then .proceed false
      else if clientInfo3 = 0 then .versionMismatch
      else if (pv clientVersion).take 2 ≠ (pv sv).take 2 then .versionMismatch
      else .proceed true
    | some _ => if clientInfo3 = 0 then .versionMismatch else .crash
    | none => .protocolMismatch

/-!
Request body codec (_addBodyToRequest, lines 283-319).
-/

/-- Logical request bodies: absent (None), a structured mapping, a
filesystem path, raw text, or any other type. -/
inductive QBody where
  | absent
  | dict : JFields → QBody
  | filePath : Str → QBody
  | rawText : Str → QBody
  | other
deriving DecidableEq

/-- Headers and payload produced for a body: the content type, the
explicit content length when one is set, and the in-memory payload when
the body is not streamed from a file. -/
structure EncodedRequest where
  contentType : Str
  contentLength : Option Str
  payload : Option Str
deriving DecidableEq

/-- Model of _addBodyToRequest: a dict is json-serialized with
Content-Type application/json and an explicit Content-Length equal to
str(len(text)); a path streams as octet-stream with the length left to
the transport; a string wraps as an octet-stream buffer; anything else
is silently dropped. -/
def addBodyToRequest : QBody → Option EncodedRequest
  | .absent => none
  | .dict fs =>
    some ⟨"application/json".toList,
          some (encNum (JVal.enc (.jobj fs)).length),
          some (JVal.enc (.jobj fs))⟩
  | .filePath _ => some ⟨"application/octet-stream".toList, none, none⟩
  | .rawText s => some ⟨"application/octet-stream".toList, none, some s⟩
  | .other => none

/-- Default of the body parameter of createHTTPQuery (line 199): an
empty mapping, not an absent body. -/
def createHTTPQueryDefaultBody : QBody := .dict .fnil

/-- UTF-8 encoded size of one character. -/
def utf8Len (c : Char) : Nat :=
  if c.toNat < 0x80 then 1
  else if c.toNat < 0x800 then 2
  else if c.toNat < 0x10000 then 3
  else 4

/-- Byte length of the UTF-8 encoding of a string. -/
def byteLen (s : Str) : Nat := (s.map utf8Len).sum

/-!
URL construction (_executeHTTPQuery, lines 354-366). The ipaddress
module is external; isIPv6 models IPv6Address acceptance of textual
hextet addresses (the embedded-IPv4 tail form is outside the model).
-/

/-- Hexadecimal digit test. -/
def isHexDigit (c : Char) : Bool :=
  isDigit c || ('a' ≤ c && c ≤ 'f') || ('A' ≤ c && c ≤ 'F')

/-- Split at every colon, like str.split(':'). -/
def splitColon : Str → List Str
  | [] => [[]]
  | c :: rest =>
    match splitColon rest with
    | h :: t => if c = ':' then [] :: h :: t else (c :: h) :: t
    | [] => [[]]

/-- One hextet: one to four hexadecimal digits. -/
def validHextet (g : Str) : Bool :=
  (decide (g ≠ [])) && g.length ≤ 4 && g.all isHexDigit

/-- Model of ipaddress.IPv6Address acceptance on hextet notation: split
on colons; at least three parts; at most one empty interior part (the
double colon), which must absorb at least one hextet; an empty edge part
is only allowed directly next to the double colon; without a double
colon exactly eight hextets are required. -/
def isIPv6 (s : Str) : Bool :=
  (decide (s ≠ [])) && s.all (fun c => isHexDigit c || c = ':') &&
  (let parts := splitColon s
   if parts.length < 3 then false
   else
     match (parts.drop 1).dropLast.findIdx? (fun p => p.isEmpty),
           ((parts.drop 1).dropLast.filter (fun p => p.isEmpty)).length with
     | some i, 1 =>
       let hi := parts.take (i + 1)
       let lo := parts.drop (i + 2)
       (hi = [[]] || hi.all validHextet) && (lo = [[]] || lo.all validHextet) &&
       ((if hi = [[]] then 0 else hi.length) + (if lo = [[]] then 0 else lo.length) ≤ 7)
     | none, _ => decide (parts.length = 8) && parts.all validHextet
     | some _, _ => false)

/-- Everything before the last percent sign, like
host.rsplit(chr(37), 1)[0]; the host itself when it has no percent. -/
def stripZone (s : Str) : Str :=
  if '%' ∈ s then ((s.reverse.dropWhile (fun c => c ≠ '%')).drop 1).reverse else s

/-- Host part of the URL (lines 354-360): the host with its zone id
stripped, bracketed, when that parses as IPv6; the configured host
unchanged otherwise. -/
def hostForUrl (host : Str) : Str :=
  let ip := stripZone host
  if isIPv6 ip then '[' :: ip ++ [']'] else host

/-- Constructed request URL (lines 363-366). -/
def buildUrl (protocol : Str) (user : Option Str) (host : Str) (port : Nat)
    (path : Str) : Str :=
  protocol ++ "://".toList ++
  (match user with
   | some u => u ++ ['@']
   | none => []) ++
  hostForUrl host ++ ':' :: encNum port ++ "/v2".toList ++ path

/-!
Streaming decoder (_processDownloadProgress, lines 407-442).
-/

/-- Data the download-progress handler reads from the reply. -/
structure DlReply where
  error : Nat
  status : Nat
  contentType : Option Str
deriving DecidableEq

/-- An invocation of the download callback: a decoded JSON value on the
JSON path, the raw chunk otherwise. -/
inductive DlEvent where
  | json : JVal → DlEvent
  | raw : Str → DlEvent
deriving DecidableEq

/-- The per-client stream buffer, keyed by query id. -/
abbrev Buffer := List (Str × Str)

/-- Buffer lookup. -/
def bufGet (buf : Buffer) (qid : Str) : Option Str :=
  match buf with
  | [] => none
  | (k, w) :: rest => if k = qid then some w else bufGet rest qid

/-- Buffer assignment, overwriting an existing entry. -/
def bufSet (buf : Buffer) (qid : Str) (v : Str) : Buffer :=
  match buf with
  | [] => [(qid, v)]
  | (k, w) :: rest => if k = qid then (qid, v) :: rest else (k, w) :: bufSet rest qid v

/-- The decode loop of the JSON path (lines 429-435): repeatedly strip
leading whitespace and decode one value from the front; the values
decoded and the stripped undecoded remainder (which the handler stores
back into the buffer) are returned. The fuel only needs to exceed the
content length. -/
def drainLoop : Nat → Str → List JVal × Str
  | 0, content => ([], content)
  | n + 1, content =>
    let c := lstrip content
    match rawDecode c with
    | some (v, rest) =>
      let r := drainLoop n rest
      (v :: r.1, r.2)
    | none => ([], c)

/-- Model of _processDownloadProgress for one delivered chunk: drop the
chunk on a transport error or an HTTP status of 300 or more; on JSON
content prepend the buffered fragment, run the decode loop and store the
remainder back under the query id; otherwise forward the raw chunk. -/
def processDownloadProgress (r : DlReply) (buf : Buffer) (qid : Str) (chunk : Str) :
    List DlEvent × Buffer :=
  if r.error ≠ 0 then ([], buf)
  else if 300 ≤ r.status then ([], buf)
  else if r.contentType = some jsonCT then
    let content :=
      match bufGet buf qid with
      | some b => b ++ chunk
      | none => chunk
    let res := drainLoop (content.length + 1) content
    (res.1.map DlEvent.json, bufSet buf qid res.2)
  else ([DlEvent.raw chunk], buf)

/-- Sequential processing of a list of chunks for one query. -/
def processChunks (r : DlReply) (buf : Buffer) (qid : Str) : List Str → List DlEvent × Buffer
  | [] => ([], buf)
  | c :: cs =>
    let p := processDownloadProgress r buf qid c
    let q := processChunks r p.2 qid cs
    (p.1 ++ q.1, q.2)

/-- Concatenated serialization of a list of JSON values, the byte stream
a feed of those values delivers. -/
def JoinEnc (vs : List JVal) : Str := (vs.map JVal.enc).flatten

/-- Object test on modelled JSON values. -/
def isObjV : JVal → Bool
  | .jobj _ => true
  | _ => false

/-- Does the string start with a decimal digit (the only continuation a
number fails to be delimited against). -/
def digitStart : Str → Bool
  | [] => false
  | c :: _ => isDigit c

/-- Keys of an object field list, in textual order. -/
def fieldsKeys : JFields → List Str
  | .fnil => []
  | .fcons k _ fs => k :: fieldsKeys fs

/-!
Helper lemmas about decimal digits and the number encoder.
-/

theorem digitsVal_append_singleton (l : Str) (c : Char) :
    digitsVal (l ++ [c]) = 10 * digitsVal l + (c.toNat - 48) := by
  simp [digitsVal, List.foldl_append]

theorem digitChar_toNat (d : Nat) (h : d < 10) : (Nat.digitChar d).toNat - 48 = d := by
  interval_cases d <;> rfl

theorem isDigit_digitChar (d : Nat) (h : d < 10) : isDigit (Nat.digitChar d) = true := by
  interval_cases d <;> rfl

theorem digitChar_ne_zero (d : Nat) (h : d < 10) (h2 : d ≠ 0) : Nat.digitChar d ≠ '0' := by
  interval_cases d <;> simp_all <;> decide

theorem encNumCore_zero (fuel : Nat) : encNumCore fuel 0 = [] := by
  cases fuel <;> rfl

theorem digitsVal_encNumCore : ∀ fuel n, n < 10 ^ fuel → digitsVal (encNumCore fuel n) = n := by
  intro fuel
  induction fuel with
  | zero =>
    intro n h
    have : n = 0 := by omega
    subst this
    rfl
  | succ f ih =>
    intro n h
    by_cases h0 : n = 0
    · subst h0; rfl
    · have hdiv : n / 10 < 10 ^ f := by
        rw [Nat.div_lt_iff_lt_mul (by norm_num)]
        calc n < 10 ^ (f + 1) := h
        _ = 10 ^ f * 10 := by ring
      simp only [encNumCore, if_neg h0]
      rw [digitsVal_append_singleton, ih (n / 10) hdiv,
          digitChar_toNat (n % 10) (Nat.mod_lt _ (by norm_num))]
      omega

theorem digitsVal_encNum (n : Nat) : digitsVal (encNum n) = n := by
  by_cases h0 : n = 0
  · subst h0; rfl
  · have hb : n < 10 ^ (n + 1) := by
      calc n < 10 ^ n := Nat.lt_pow_self (by norm_num) n
      _ ≤ 10 ^ (n + 1) := Nat.pow_le_pow_right (by norm_num) (by omega)
    simp only [encNum, if_neg h0]
    exact digitsVal_encNumCore (n + 1) n hb

theorem encNumCore_all_digit : ∀ fuel n, (encNumCore fuel n).all isDigit = true := by
  intro fuel
  induction fuel with
  | zero => intro n; rfl
  | succ f ih =>
    intro n
    by_cases h0 : n = 0
    · subst h0; rfl
    · simp only [encNumCore, if_neg h0, List.all_append, Bool.and_eq_true]
      exact ⟨ih (n / 10), by
        simp [isDigit_digitChar (n % 10) (Nat.mod_lt _ (by norm_num))]⟩

theorem encNum_all_digit (n : Nat) : (encNum n).all isDigit = true := by
  by_cases h0 : n = 0
  · subst h0; rfl
  · simp only [encNum, if_neg h0]
    exact encNumCore_all_digit (n + 1) n

theorem encNumCore_head : ∀ fuel n, n ≠ 0 → n < 10 ^ fuel →
    ∃ c t, encNumCore fuel n = c :: t ∧ isDigit c = true ∧ c ≠ '0' := by
  intro fuel
  induction fuel with
  | zero => intro n h0 h; omega
  | succ f ih =>
    intro n h0 h
    simp only [encNumCore, if_neg h0]
    by_cases hq : n / 10 = 0
    · have hlt : n < 10 := by omega
      have hmod : n % 10 = n := Nat.mod_eq_of_lt hlt
      rw [hq, encNumCore_zero]
      exact ⟨Nat.digitChar (n % 10), [], rfl,
        isDigit_digitChar _ (Nat.mod_lt _ (by norm_num)),
        by rw [hmod]; exact digitChar_ne_zero n hlt h0⟩
    · have hdiv : n / 10 < 10 ^ f := by
        rw [Nat.div_lt_iff_lt_mul (by norm_num)]
        calc n < 10 ^ (f + 1) := h
        _ = 10 ^ f * 10 := by ring
      obtain ⟨c, t, he, hd, hz⟩ := ih (n / 10) hq hdiv
      exact ⟨c, t ++ [Nat.digitChar (n % 10)], by rw [he]; rfl, hd, hz⟩

theorem encNum_head (n : Nat) (h0 : n ≠ 0) :
    ∃ c t, encNum n = c :: t ∧ isDigit c = true ∧ c ≠ '0' := by
  have hb : n < 10 ^ (n + 1) := by
    calc n < 10 ^ n := Nat.lt_pow_self (by norm_num) n
    _ ≤ 10 ^ (n + 1) := Nat.pow_le_pow_right (by norm_num) (by omega)
  simp only [encNum, if_neg h0]
  exact encNumCore_head (n + 1) n h0 hb

theorem encNum_ne_nil (n : Nat) : encNum n ≠ [] := by
  by_cases h0 : n = 0
  · subst h0; decide
  · obtain ⟨c, t, he, _, _⟩ := encNum_head n h0
    simp [he]

/-!
Helper lemmas about whitespace stripping, takeWhile and scanStr.
-/

theorem lstrip_cons_not {c : Char} (s : Str) (h : isWs c = false) :
    lstrip (c :: s) = c :: s := by
  simp [lstrip, List.dropWhile_cons, h]

theorem takeWhile_append_all {p : Char → Bool} :
    ∀ l r : Str, l.all p = true → (∀ c t, r = c :: t → p c = false) →
    (l ++ r).takeWhile p = l ∧ (l ++ r).dropWhile p = r := by
  intro l
  induction l with
  | nil =>
    intro r _ hr
    cases r with
    | nil => exact ⟨rfl, rfl⟩
    | cons c t =>
      have := hr c t rfl
      constructor
      · simp [List.takeWhile_cons, this]
      · simp [List.dropWhile_cons, this]
  | cons a l ih =>
    intro r hl hr
    simp only [List.all_cons, Bool.and_eq_true] at hl
    have := ih r hl.2 hr
    constructor
    · simp [List.takeWhile_cons, hl.1, this.1]
    · simp [List.dropWhile_cons, hl.1, this.2]

theorem scanStr_complete : ∀ content rest : Str, '"' ∉ content →
    scanStr (content ++ '"' :: rest) = some (content, rest) := by
  intro content
  induction content with
  | nil => intro rest _; rfl
  | cons c t ih =>
    intro rest hq
    simp only [List.mem_cons, not_or] at hq
    have hc : ¬ (c = '"') := fun h => hq.1 h.symm
    simp only [List.cons_append, scanStr, if_neg hc]
    rw [show t.append ('"' :: rest) = t ++ '"' :: rest from rfl, ih rest hq.2]

theorem scanStr_none : ∀ p : Str, '"' ∉ p → scanStr p = none := by
  intro p
  induction p with
  | nil => intro _; rfl
  | cons c t ih =>
    intro hq
    simp only [List.mem_cons, not_or] at hq
    have hc : ¬ (c = '"') := fun h => hq.1 h.symm
    simp only [scanStr, if_neg hc, ih hq.2]

theorem append_eq_cons_cases {p q t : Str} {c : Char} (h : p ++ q = c :: t) :
    (p = [] ∧ q = c :: t) ∨ ∃ p1, p = c :: p1 ∧ p1 ++ q = t := by
  cases p with
  | nil => exact Or.inl ⟨rfl, h⟩
  | cons a p1 =>
    simp only [List.cons_append, List.cons.injEq] at h
    exact Or.inr ⟨p1, by rw [h.1], h.2⟩

/-!
Unfolding lemmas for the fueled parser.
-/

theorem parseVal_nil : ∀ fuel, parseVal fuel [] = none := by
  intro fuel; cases fuel <;> rfl

theorem parseFields_nil : ∀ fuel, parseFields fuel [] = none := by
  intro fuel; cases fuel <;> rfl

theorem expectChar_nil (c : Char) : expectChar c [] = none := rfl

theorem expectChar_cons_self (c : Char) (t : Str) : expectChar c (c :: t) = some t := by
  simp [expectChar]

theorem expectChar_cons_ne (c d : Char) (t : Str) (h : d ≠ c) :
    expectChar c (d :: t) = none := by
  simp [expectChar, h]

theorem parseVal_brace (fuel : Nat) (s : Str) :
    parseVal (fuel + 1) ('\x7b' :: s) =
      (match expectChar '\x7d' (lstrip s) with
       | some rem => some (.jobj .fnil, rem)
       | none =>
         match parseFields fuel (lstrip s) with
         | some (fs, rem) => some (.jobj fs, rem)
         | none => none) := rfl

theorem parseVal_quote (fuel : Nat) (s : Str) :
    parseVal (fuel + 1) ('"' :: s) =
      (match scanStr s with
       | some (content, rem) => some (.jstr content, rem)
       | none => none) := rfl

theorem parseVal_zeroChar (fuel : Nat) (s : Str) :
    parseVal (fuel + 1) ('0' :: s) = some (.jnum 0, s) := rfl

theorem parseVal_digit (fuel : Nat) (c : Char) (s : Str) (h : isDigit c = true)
    (h0 : c ≠ '0') :
    parseVal (fuel + 1) (c :: s) =
      some (.jnum (digitsVal ((c :: s).takeWhile isDigit)), (c :: s).dropWhile isDigit) := by
  simp only [parseVal, if_neg h0, if_pos h]

theorem parseVal_other (fuel : Nat) (c : Char) (s : Str) (hd : isDigit c = false)
    (hq : c ≠ '"') (hb : c ≠ '\x7b') :
    parseVal (fuel + 1) (c :: s) = none := by
  have h0 : c ≠ '0' := by intro h; subst h; simp [isDigit] at hd
  simp only [parseVal, if_neg h0, hd, if_neg hq, if_neg hb, Bool.false_eq_true, if_false]

theorem parseFields_succ (fuel : Nat) (s : Str) :
    parseFields (fuel + 1) s =
      (match expectChar '"' s with
       | none => none
       | some s1 =>
         match scanStr s1 with
         | none => none
         | some (k, s2) =>
           match expectChar ':' (lstrip s2) with
           | none => none
           | some s4 =>
             match parseVal fuel (lstrip s4) with
             | none => none
             | some (v, s6) =>
               match expectChar '\x7d' (lstrip s6) with
               | some s8 => some (.fcons k v .fnil, s8)
               | none =>
                 match expectChar ',' (lstrip s6) with
                 | none => none
                 | some s8 =>
                   match parseFields fuel (lstrip s8) with
                   | none => none
                   | some (fs, s9) => some (.fcons k v fs, s9)) := rfl

theorem parseFields_not_quote (fuel : Nat) (c : Char) (s : Str) (h : c ≠ '"') :
    parseFields fuel (c :: s) = none := by
  cases fuel with
  | zero => rfl
  | succ n => rw [parseFields_succ, expectChar_cons_ne _ _ _ h]

theorem parse_mono : ∀ fuel,
    (∀ s r, parseVal fuel s = some r → parseVal (fuel + 1) s = some r) ∧
    (∀ s r, parseFields fuel s = some r → parseFields (fuel + 1) s = some r) := by
  intro fuel
  induction fuel with
  | zero =>
    constructor <;> intro s r h <;> exact absurd h (by simp [parseVal, parseFields])
  | succ n ih =>
    constructor
    · intro s r h
      cases s with
      | nil => rw [parseVal_nil] at h; exact Option.noConfusion h
      | cons c t =>
        by_cases h0 : c = '0'
        · subst h0; rw [parseVal_zeroChar] at h ⊢; exact h
        · by_cases hd : isDigit c
          · rw [parseVal_digit n c t hd h0] at h
            rw [parseVal_digit (n + 1) c t hd h0]
            exact h
          · by_cases hq : c = '"'
            · subst hq; rw [parseVal_quote] at h ⊢; exact h
            · by_cases hb : c = '\x7b'
              · subst hb
                rw [parseVal_brace] at h
                rcases he : expectChar '\x7d' (lstrip t) with _ | rem
                · simp only [he] at h
                  rcases hpf : parseFields n (lstrip t) with _ | ⟨fs, rem⟩
                  · simp only [hpf] at h
                    exact Option.noConfusion h
                  · simp only [hpf] at h
                    rw [parseVal_brace]
                    simp only [he, ih.2 _ _ hpf]
                    exact h
                · simp only [he] at h
                  rw [parseVal_brace]
                  simp only [he]
                  exact h
              · rw [parseVal_other n c t (by simpa using hd) hq hb] at h
                exact Option.noConfusion h
    · intro s r h
      rw [parseFields_succ] at h
      rcases h1 : expectChar '"' s with _ | s1
      · simp only [h1] at h
        exact Option.noConfusion h
      · simp only [h1] at h
        rcases h2 : scanStr s1 with _ | ⟨k, s2⟩
        · simp only [h2] at h
          exact Option.noConfusion h
        · simp only [h2] at h
          rcases h3 : expectChar ':' (lstrip s2) with _ | s4
          · simp only [h3] at h
            exact Option.noConfusion h
          · simp only [h3] at h
            rcases h4 : parseVal n (lstrip s4) with _ | ⟨v, s6⟩
            · simp only [h4] at h
              exact Option.noConfusion h
            · simp only [h4] at h
              have h4b := ih.1 _ _ h4
              rcases h5 : expectChar '\x7d' (lstrip s6) with _ | s8
              · simp only [h5] at h
                rcases h6 : expectChar ',' (lstrip s6) with _ | s8
                · simp only [h6] at h
                  exact Option.noConfusion h
                · simp only [h6] at h
                  rcases h7 : parseFields n (lstrip s8) with _ | ⟨fs, s9⟩
                  · simp only [h7] at h
                    exact Option.noConfusion h
                  · simp only [h7] at h
                    have h7b := ih.2 _ _ h7
                    rw [parseFields_succ]
                    simp only [h1, h2, h3, h4b, h5, h6, h7b]
                    exact h
              · simp only [h5] at h
                rw [parseFields_succ]
                simp only [h1, h2, h3, h4b, h5]
                exact h

theorem parseVal_mono_le {f g : Nat} (hle : f ≤ g) {s : Str} {r : JVal × Str}
    (h : parseVal f s = some r) : parseVal g s = some r := by
  induction hle with
  | refl => exact h
  | step _ ih => exact (parse_mono _).1 s r ih

theorem parseFields_mono_le {f g : Nat} (hle : f ≤ g) {s : Str} {r : JFields × Str}
    (h : parseFields f s = some r) : parseFields g s = some r := by
  induction hle with
  | refl => exact h
  | step _ ih => exact (parse_mono _).2 s r ih

theorem isWs_false_of_isDigit {c : Char} (h : isDigit c = true) : isWs c = false := by
  rcases Bool.eq_false_or_eq_true (isWs c) with h2 | h2
  · exfalso
    simp only [isWs, Bool.or_eq_true, decide_eq_true_eq] at h2
    rcases h2 with ((rfl | rfl) | rfl) | rfl <;> simp [isDigit] at h
  · exact h2

theorem not_quote_of_all_okChar {s : Str} (h : s.all okChar = true) : '"' ∉ s := by
  intro hm
  have := List.all_eq_true.mp h _ hm
  simp [okChar] at this

theorem enc_ne_nil (v : JVal) : JVal.enc v ≠ [] := by
  cases v with
  | jnum m => exact encNum_ne_nil m
  | jstr s => simp [JVal.enc]
  | jobj fs => simp [JVal.enc]

theorem lstrip_enc (v : JVal) (rest : Str) :
    lstrip (JVal.enc v ++ rest) = JVal.enc v ++ rest := by
  cases v with
  | jnum m =>
    by_cases hm : m = 0
    · subst hm
      exact lstrip_cons_not _ (by decide)
    · obtain ⟨c, t, he, hdc, _⟩ := encNum_head m hm
      show lstrip (encNum m ++ rest) = encNum m ++ rest
      rw [he, List.cons_append]
      exact lstrip_cons_not _ (isWs_false_of_isDigit hdc)
  | jstr s =>
    show lstrip (('"' :: s ++ ['"']) ++ rest) = _
    rw [List.cons_append]
    exact lstrip_cons_not _ (by decide)
  | jobj fs =>
    show lstrip (('\x7b' :: JFields.encInner fs ++ ['\x7d']) ++ rest) = _
    rw [List.cons_append]
    exact lstrip_cons_not _ (by decide)

theorem encInner_cons_head (k : Str) (v : JVal) (fs : JFields) :
    ∃ t, JFields.encInner (.fcons k v fs) = '"' :: t := by
  cases fs <;> exact ⟨_, rfl⟩

theorem lstrip_cons_ws {c : Char} (s : Str) (h : isWs c = true) :
    lstrip (c :: s) = lstrip s := by
  simp [lstrip, List.dropWhile_cons, h]

theorem parse_complete : ∀ fuel,
    (∀ v rest, JVal.valid v = true → (JVal.enc v).length ≤ fuel →
      (∀ m, v = JVal.jnum m → digitStart rest = false) →
      parseVal fuel (JVal.enc v ++ rest) = some (v, rest)) ∧
    (∀ fs rest, JFields.valid fs = true → fs ≠ .fnil →
      (JFields.encInner fs).length + 1 ≤ fuel →
      parseFields fuel (JFields.encInner fs ++ '\x7d' :: rest) = some (fs, rest)) := by
  intro fuel
  induction fuel with
  | zero =>
    constructor
    · intro v rest _ hlen _
      exfalso
      exact enc_ne_nil v (List.length_eq_zero.mp (Nat.le_zero.mp hlen))
    · intro fs rest _ _ hlen
      omega
  | succ n ih =>
    constructor
    · intro v rest hv hlen hg
      cases v with
      | jnum m =>
        by_cases hm : m = 0
        · subst hm
          show parseVal (n + 1) (JVal.enc (JVal.jnum 0) ++ rest) = _
          have h0 : JVal.enc (JVal.jnum 0) = ['0'] := rfl
          rw [h0, List.singleton_append, parseVal_zeroChar]
        · obtain ⟨c, t, he, hdc, hc0⟩ := encNum_head m hm
          have henc : JVal.enc (JVal.jnum m) = c :: t := he
          have hall : (c :: t).all isDigit = true := by rw [← he]; exact encNum_all_digit m
          have hrg : ∀ d u, rest = d :: u → isDigit d = false := by
            intro d u hru
            have h2 := hg m rfl
            rw [hru] at h2
            simpa [digitStart] using h2
          obtain ⟨htake, hdrop⟩ := takeWhile_append_all (c :: t) rest hall hrg
          rw [henc, List.cons_append, parseVal_digit n c (t ++ rest) hdc hc0,
              ← List.cons_append, htake, hdrop, ← he, digitsVal_encNum]
      | jstr str =>
        have hq : '"' ∉ str := not_quote_of_all_okChar (by simpa [JVal.valid] using hv)
        show parseVal (n + 1) (('"' :: str ++ ['"']) ++ rest) = _
        simp only [List.cons_append, List.append_assoc, List.singleton_append, List.nil_append]
        rw [parseVal_quote, scanStr_complete str rest hq]
      | jobj fs =>
        show parseVal (n + 1) (('\x7b' :: JFields.encInner fs ++ ['\x7d']) ++ rest) = _
        simp only [List.cons_append, List.append_assoc, List.singleton_append, List.nil_append]
        rw [parseVal_brace]
        cases fs with
        | fnil =>
          have hnil : JFields.encInner .fnil = ([] : Str) := rfl
          rw [hnil, List.nil_append, lstrip_cons_not _ (by decide), expectChar_cons_self]
        | fcons k v fs2 =>
          obtain ⟨t2, ht2⟩ := encInner_cons_head k v fs2
          have hlen2 : (JFields.encInner (.fcons k v fs2)).length + 1 ≤ n := by
            have h3 : (JVal.enc (JVal.jobj (.fcons k v fs2))).length
                = (JFields.encInner (.fcons k v fs2)).length + 2 := by
              simp [JVal.enc]
            omega
          have hpf := ih.2 (.fcons k v fs2) rest (by simpa [JVal.valid] using hv)
            (fun hcon => JFields.noConfusion hcon) hlen2
          have hls : lstrip (JFields.encInner (.fcons k v fs2) ++ '\x7d' :: rest)
              = JFields.encInner (.fcons k v fs2) ++ '\x7d' :: rest := by
            rw [ht2, List.cons_append]
            exact lstrip_cons_not _ (by decide)
          have hexp : expectChar '\x7d' (JFields.encInner (.fcons k v fs2) ++ '\x7d' :: rest)
              = none := by
            rw [ht2, List.cons_append]
            exact expectChar_cons_ne _ _ _ (by decide)
          simp only [hls, hexp, hpf]
    · intro fs rest hval hne hlen
      cases fs with
      | fnil => exact absurd rfl hne
      | fcons k v fs2 =>
        have hvparts := hval
        simp only [JFields.valid, Bool.and_eq_true] at hvparts
        obtain ⟨⟨hk, hvv⟩, hvf⟩ := hvparts
        have hqk : '"' ∉ k := not_quote_of_all_okChar hk
        cases fs2 with
        | fnil =>
          show parseFields (n + 1)
              (('"' :: k ++ '"' :: ':' :: ' ' :: JVal.enc v) ++ '\x7d' :: rest) = _
          have hlenv : (JVal.enc v).length ≤ n := by
            have h3 : (JFields.encInner (.fcons k v .fnil)).length
                = k.length + (JVal.enc v).length + 4 := by
              simp [JFields.encInner]
              omega
            omega
          simp only [List.cons_append, List.append_assoc]
          have hsc := scanStr_complete k (':' :: ' ' :: (JVal.enc v ++ '\x7d' :: rest)) hqk
          have e3 : expectChar ':' (lstrip (':' :: ' ' :: (JVal.enc v ++ '\x7d' :: rest)))
              = some (' ' :: (JVal.enc v ++ '\x7d' :: rest)) := by
            rw [lstrip_cons_not _ (by decide)]
            exact expectChar_cons_self _ _
          have e4 : lstrip (' ' :: (JVal.enc v ++ '\x7d' :: rest))
              = JVal.enc v ++ '\x7d' :: rest := by
            rw [lstrip_cons_ws _ (by decide)]
            exact lstrip_enc v _
          have e5 := ih.1 v ('\x7d' :: rest) hvv hlenv (fun m _ => rfl)
          have e6 : expectChar '\x7d' (lstrip ('\x7d' :: rest)) = some rest := by
            rw [lstrip_cons_not _ (by decide)]
            exact expectChar_cons_self _ _
          rw [parseFields_succ]
          simp only [expectChar_cons_self, hsc, e3, e4, e5, e6]
        | fcons k2 v2 fs3 =>
          show parseFields (n + 1)
              (('"' :: k ++ '"' :: ':' :: ' ' :: JVal.enc v ++
                ',' :: ' ' :: JFields.encInner (.fcons k2 v2 fs3)) ++ '\x7d' :: rest) = _
          have hlenv : (JVal.enc v).length ≤ n ∧
              (JFields.encInner (.fcons k2 v2 fs3)).length + 1 ≤ n := by
            have h3 : (JFields.encInner (.fcons k v (.fcons k2 v2 fs3))).length
                = k.length + (JVal.enc v).length +
                  (JFields.encInner (.fcons k2 v2 fs3)).length + 6 := by
              simp [JFields.encInner]
              omega
            omega
          simp only [List.cons_append, List.append_assoc]
          have hsc := scanStr_complete k
            (':' :: ' ' :: (JVal.enc v ++ ',' :: ' ' ::
              (JFields.encInner (.fcons k2 v2 fs3) ++ '\x7d' :: rest))) hqk
          have e3 : expectChar ':' (lstrip (':' :: ' ' :: (JVal.enc v ++ ',' :: ' ' ::
              (JFields.encInner (.fcons k2 v2 fs3) ++ '\x7d' :: rest))))
              = some (' ' :: (JVal.enc v ++ ',' :: ' ' ::
                (JFields.encInner (.fcons k2 v2 fs3) ++ '\x7d' :: rest))) := by
            rw [lstrip_cons_not _ (by decide)]
            exact expectChar_cons_self _ _
          have e4 : lstrip (' ' :: (JVal.enc v ++ ',' :: ' ' ::
              (JFields.encInner (.fcons k2 v2 fs3) ++ '\x7d' :: rest)))
              = JVal.enc v ++ ',' :: ' ' ::
                (JFields.encInner (.fcons k2 v2 fs3) ++ '\x7d' :: rest) := by
            rw [lstrip_cons_ws _ (by decide)]
            exact lstrip_enc v _
          have e5 := ih.1 v (',' :: ' ' :: (JFields.encInner (.fcons k2 v2 fs3) ++
            '\x7d' :: rest)) hvv hlenv.1 (fun m _ => rfl)
          have hlsc : lstrip (',' :: ' ' :: (JFields.encInner (.fcons k2 v2 fs3) ++
              '\x7d' :: rest)) = ',' :: ' ' :: (JFields.encInner (.fcons k2 v2 fs3) ++
              '\x7d' :: rest) := lstrip_cons_not _ (by decide)
          have e6 : expectChar '\x7d' (',' :: ' ' :: (JFields.encInner (.fcons k2 v2 fs3) ++
              '\x7d' :: rest)) = none := expectChar_cons_ne _ _ _ (by decide)
          have e7 : expectChar ',' (',' :: ' ' :: (JFields.encInner (.fcons k2 v2 fs3) ++
              '\x7d' :: rest)) = some (' ' :: (JFields.encInner (.fcons k2 v2 fs3) ++
              '\x7d' :: rest)) := expectChar_cons_self _ _
          obtain ⟨t2, ht2⟩ := encInner_cons_head k2 v2 fs3
          have e8 : lstrip (' ' :: (JFields.encInner (.fcons k2 v2 fs3) ++ '\x7d' :: rest))
              = JFields.encInner (.fcons k2 v2 fs3) ++ '\x7d' :: rest := by
            rw [lstrip_cons_ws _ (by decide), ht2, List.cons_append]
            exact lstrip_cons_not _ (by decide)
          have e9 := ih.2 (.fcons k2 v2 fs3) rest hvf
            (fun hcon => JFields.noConfusion hcon) hlenv.2
          rw [parseFields_succ]
          simp only [expectChar_cons_self, hsc, e3, e4, e5, hlsc, e6, e7, e8, e9]

theorem rawDecode_enc (v : JVal) (rest : Str) (hv : JVal.valid v = true)
    (hg : ∀ m, v = JVal.jnum m → digitStart rest = false) :
    rawDecode (JVal.enc v ++ rest) = some (v, rest) := by
  have hlen : (JVal.enc v).length ≤ (JVal.enc v ++ rest).length + 1 := by
    rw [List.length_append]; omega
  exact (parse_complete _).1 v rest hv hlen hg

theorem loads_enc (v : JVal) (hv : JVal.valid v = true) : loads (JVal.enc v) = some v := by
  have h1 : lstrip (JVal.enc v) = JVal.enc v := by
    have := lstrip_enc v []
    rwa [List.append_nil] at this
  have h2 : rawDecode (JVal.enc v) = some (v, []) := by
    have := rawDecode_enc v [] hv (fun m _ => rfl)
    rwa [List.append_nil] at this
  rw [loads, h1, h2]
  rfl

theorem parseVal_zero (s : Str) : parseVal 0 s = none := rfl

theorem parseFields_zero (s : Str) : parseFields 0 s = none := rfl

theorem lstrip_nil : lstrip [] = [] := rfl

theorem takeWhile_all {p : Char → Bool} (l : Str) (h : l.all p = true) :
    l.takeWhile p = l ∧ l.dropWhile p = [] := by
  have := takeWhile_append_all l [] h (fun c t hct => nomatch hct)
  rwa [List.append_nil] at this

theorem append_split_strict {A B p q : Str} (h : p ++ q = A ++ B) :
    (∃ b, A = p ++ b ∧ b ≠ [] ∧ q = b ++ B) ∨ (∃ e, p = A ++ e ∧ B = e ++ q) := by
  rcases List.append_eq_append_iff.mp h with ⟨e, he1, he2⟩ | ⟨e, he1, he2⟩
  · by_cases hee : e = []
    · subst hee
      right
      exact ⟨[], by simpa using he1.symm, by simpa using he2.symm⟩
    · exact Or.inl ⟨e, he1, hee, he2⟩
  · exact Or.inr ⟨e, he1, he2⟩

theorem enc_head_not_ws (v : JVal) (c : Char) (t : Str) (h : JVal.enc v = c :: t) :
    isWs c = false := by
  cases v with
  | jnum m =>
    by_cases hm : m = 0
    · subst hm
      have : (['0'] : Str) = c :: t := h
      injection this with h1 _
      subst h1
      decide
    · obtain ⟨c2, t2, he, hd, _⟩ := encNum_head m hm
      have : JVal.enc (JVal.jnum m) = c2 :: t2 := he
      rw [h] at this
      injection this with h1 _
      subst h1
      exact isWs_false_of_isDigit hd
  | jstr s =>
    have : ('"' :: (s ++ ['"']) : Str) = c :: t := by rw [← h]; rfl
    injection this with h1 _
    subst h1
    decide
  | jobj fs =>
    have : ('\x7b' :: (JFields.encInner fs ++ ['\x7d']) : Str) = c :: t := by rw [← h]; rfl
    injection this with h1 _
    subst h1
    decide

theorem enc_all_digit_of_num (m : Nat) : (JVal.enc (JVal.jnum m)).all isDigit = true :=
  encNum_all_digit m

/-- Shared front part of the field-sequence prefix-failure argument: a
proper prefix of quote, key, quote, colon, space, value, tail makes the
field parser fail, given that prefixes of the value fail, that the tail
does not start with a digit, and that the continuation after a fully
parsed value fails on every prefix of the tail. -/
theorem parseFields_prefix_front (n : Nat) (k : Str) (v : JVal) (TAIL p q : Str)
    (hqk : '"' ∉ k) (hvv : JVal.valid v = true)
    (ihPV : ∀ p2 q2, (∀ m, v ≠ JVal.jnum m) → JVal.enc v = p2 ++ q2 → q2 ≠ [] →
      parseVal n p2 = none)
    (hTg : ∀ c t, TAIL = c :: t → isDigit c = false)
    (hcont : ∀ e, TAIL = e ++ q →
      (match expectChar '\x7d' (lstrip e) with
       | some s8 => some (JFields.fcons k v JFields.fnil, s8)
       | none =>
         match expectChar ',' (lstrip e) with
         | none => none
         | some s8 =>
           match parseFields n (lstrip s8) with
           | none => none
           | some (fs, s9) => some (JFields.fcons k v fs, s9)) = none)
    (henc : ('"' :: (k ++ '"' :: ':' :: ' ' :: (JVal.enc v ++ TAIL)) : Str) = p ++ q)
    (hq : q ≠ []) :
    parseFields (n + 1) p = none := by
  rcases append_eq_cons_cases henc.symm with ⟨rfl, rfl⟩ | ⟨p1, rfl, hp1⟩
  · exact parseFields_nil _
  · rw [parseFields_succ]
    simp only [expectChar_cons_self]
    rcases List.append_eq_append_iff.mp hp1 with ⟨a, ha1, ha2⟩ | ⟨a, ha1, ha2⟩
    · have hs : scanStr p1 = none :=
        scanStr_none p1 (fun hm => hqk (ha1 ▸ List.mem_append_left _ hm))
      simp only [hs]
    · cases a with
      | nil =>
        have hp1k : p1 = k := by simpa using ha1
        subst hp1k
        have hs : scanStr p1 = none := scanStr_none p1 hqk
        simp only [hs]
      | cons c a2 =>
        injection ha2 with hc ha3
        subst hc
        have hsc : scanStr p1 = some (k, a2) := by
          rw [ha1]
          exact scanStr_complete k a2 hqk
        simp only [hsc]
        rcases append_eq_cons_cases ha3.symm with ⟨rfl, rfl⟩ | ⟨a3, rfl, ha4⟩
        · simp only [lstrip_nil, expectChar_nil]
        · have h5 : lstrip (':' :: a3) = ':' :: a3 := lstrip_cons_not _ (by decide)
          simp only [h5, expectChar_cons_self]
          rcases append_eq_cons_cases ha4 with ⟨rfl, rfl⟩ | ⟨a4, rfl, ha5⟩
          · simp only [lstrip_nil, parseVal_nil]
          · have h6 : lstrip (' ' :: a4) = lstrip a4 := lstrip_cons_ws _ (by decide)
            rcases append_split_strict ha5 with ⟨b, hb1, hb2, hb3⟩ | ⟨e, he1, he2⟩
            · -- a4 is a strict prefix of the value encoding
              cases v with
              | jnum m =>
                cases a4 with
                | nil => simp only [h6, lstrip_nil, parseVal_nil]
                | cons c4 a5 =>
                  by_cases hm : m = 0
                  · exfalso
                    subst hm
                    have : (['0'] : Str) = (c4 :: a5) ++ b := hb1
                    have hlb : (1 : Nat) = a5.length + b.length + 1 := by
                      have := congrArg List.length this
                      simpa [List.length_append] using this
                    have hb0 : b.length = 0 := by omega
                    exact hb2 (List.length_eq_zero.mp hb0)
                  · have hall : ((c4 :: a5) ++ b).all isDigit = true := by
                      rw [← hb1]
                      exact enc_all_digit_of_num m
                    have hall2 : (c4 :: a5).all isDigit = true := by
                      rw [List.all_append] at hall
                      exact (Bool.and_eq_true .. |>.mp hall).1
                    have hc4 : isDigit c4 = true := by
                      simp only [List.all_cons, Bool.and_eq_true] at hall2
                      exact hall2.1
                    have hc40 : c4 ≠ '0' := by
                      obtain ⟨ch, ct, hech, hdch, hch0⟩ := encNum_head m hm
                      have : JVal.enc (JVal.jnum m) = ch :: ct := hech
                      rw [hb1] at this
                      injection this with hx _
                      rw [← hx] at hch0
                      exact hch0
                    have hls4 : lstrip (c4 :: a5) = c4 :: a5 :=
                      lstrip_cons_not _ (isWs_false_of_isDigit hc4)
                    cases n with
                    | zero => simp only [h6, hls4, parseVal_zero]
                    | succ n2 =>
                      obtain ⟨htk, hdr⟩ := takeWhile_all (c4 :: a5) hall2
                      simp only [h6, hls4, parseVal_digit n2 c4 a5 hc4 hc40, htk, hdr,
                        lstrip_nil, expectChar_nil]
              | jstr s =>
                cases a4 with
                | nil => simp only [h6, lstrip_nil, parseVal_nil]
                | cons c4 a5 =>
                  have hls4 : lstrip (c4 :: a5) = c4 :: a5 := by
                    refine lstrip_cons_not _ ?_
                    exact enc_head_not_ws _ c4 (a5 ++ b) (by rw [hb1, List.cons_append])
                  have hpv : parseVal n (c4 :: a5) = none :=
                    ihPV (c4 :: a5) b (fun m hcon => JVal.noConfusion hcon) hb1 hb2
                  simp only [h6, hls4, hpv]
              | jobj fs0 =>
                cases a4 with
                | nil => simp only [h6, lstrip_nil, parseVal_nil]
                | cons c4 a5 =>
                  have hls4 : lstrip (c4 :: a5) = c4 :: a5 := by
                    refine lstrip_cons_not _ ?_
                    exact enc_head_not_ws _ c4 (a5 ++ b) (by rw [hb1, List.cons_append])
                  have hpv : parseVal n (c4 :: a5) = none :=
                    ihPV (c4 :: a5) b (fun m hcon => JVal.noConfusion hcon) hb1 hb2
                  simp only [h6, hls4, hpv]
            · -- a4 runs past the value encoding; e is a prefix of TAIL
              have hguard : ∀ m, v = JVal.jnum m → digitStart e = false := by
                intro m _
                cases e with
                | nil => rfl
                | cons ce te =>
                  show isDigit ce = false
                  exact hTg ce (te ++ q) (by rw [he2, List.cons_append])
              have hls4 : lstrip a4 = a4 := by rw [he1]; exact lstrip_enc v e
              rcases hr : parseVal n a4 with _ | r
              · simp only [h6, hls4, hr]
              · have hN : parseVal (n + (JVal.enc v ++ e).length + 1) a4 = some r :=
                  parseVal_mono_le (by omega) hr
                have hC : parseVal (n + (JVal.enc v ++ e).length + 1) a4 = some (v, e) := by
                  rw [he1]
                  refine (parse_complete _).1 v e hvv ?_ hguard
                  rw [List.length_append]
                  omega
                have hre : r = (v, e) := by
                  rw [hN] at hC
                  exact (Option.some.injEq _ _ ▸ hC)
                subst hre
                simp only [h6, hls4, hr]
                exact hcont e he2

theorem append_eq_singleton_cases {p q : Str} {c : Char} (h : p ++ q = [c]) (hq : q ≠ []) :
    p = [] ∧ q = [c] := by
  cases p with
  | nil => exact ⟨rfl, h⟩
  | cons a p2 =>
    exfalso
    injection h with h1 h2
    exact hq (List.append_eq_nil.mp h2).2

theorem parse_prefix_fail : ∀ fuel,
    (∀ v p q, JVal.valid v = true → (∀ m, v ≠ JVal.jnum m) →
      JVal.enc v = p ++ q → q ≠ [] → parseVal fuel p = none) ∧
    (∀ fs p q, JFields.valid fs = true →
      JFields.encInner fs ++ ['\x7d'] = p ++ q → q ≠ [] → parseFields fuel p = none) := by
  intro fuel
  induction fuel with
  | zero => exact ⟨fun v p q _ _ _ _ => rfl, fun fs p q _ _ _ => rfl⟩
  | succ n ih =>
    constructor
    · intro v p q hval hnum henc hq
      cases v with
      | jnum m => exact absurd rfl (hnum m)
      | jstr s =>
        have hqs : '"' ∉ s := not_quote_of_all_okChar (by simpa [JVal.valid] using hval)
        have henc2 : ('"' :: (s ++ ['"']) : Str) = p ++ q := by
          rw [← henc]
          simp [JVal.enc]
        rcases append_eq_cons_cases henc2.symm with ⟨rfl, rfl⟩ | ⟨p1, rfl, hp1⟩
        · exact parseVal_nil _
        · rw [parseVal_quote]
          suffices hs : scanStr p1 = none by simp only [hs]
          rcases List.append_eq_append_iff.mp hp1 with ⟨e, he1, he2⟩ | ⟨e, he1, he2⟩
          · exact scanStr_none p1 (fun hm => hqs (he1 ▸ List.mem_append_left _ hm))
          · cases e with
            | nil =>
              have hps : p1 = s := by simpa using he1
              subst hps
              exact scanStr_none p1 hqs
            | cons ce e2 =>
              exfalso
              have h12 := append_eq_singleton_cases (show (ce :: e2) ++ q = ['"'] from he2.symm) hq
              exact (List.cons_ne_nil ce e2) h12.1
      | jobj fs =>
        have henc2 : ('\x7b' :: (JFields.encInner fs ++ ['\x7d']) : Str) = p ++ q := by
          rw [← henc]
          simp [JVal.enc]
        rcases append_eq_cons_cases henc2.symm with ⟨rfl, rfl⟩ | ⟨p1, rfl, hp1⟩
        · exact parseVal_nil _
        · rw [parseVal_brace]
          cases fs with
          | fnil =>
            have hp1b : p1 ++ q = ['\x7d'] := by simpa using hp1
            obtain ⟨rfl, rfl⟩ := append_eq_singleton_cases hp1b hq
            simp only [lstrip_nil, expectChar_nil, parseFields_nil]
          | fcons k v fs2 =>
            obtain ⟨t2, ht2⟩ := encInner_cons_head k v fs2
            have hvf2 : JFields.valid (.fcons k v fs2) = true := by
              simpa [JVal.valid] using hval
            rcases append_eq_cons_cases
                (show p1 ++ q = '"' :: (t2 ++ ['\x7d']) from by
                  rw [hp1, ht2, List.cons_append]) with ⟨rfl, rfl⟩ | ⟨p2, rfl, hp2⟩
            · simp only [lstrip_nil, expectChar_nil, parseFields_nil]
            · have hls : lstrip ('"' :: p2) = '"' :: p2 := lstrip_cons_not _ (by decide)
              have hex : expectChar '\x7d' ('"' :: p2) = none :=
                expectChar_cons_ne _ _ _ (by decide)
              have hpf : parseFields n ('"' :: p2) = none := by
                refine ih.2 (.fcons k v fs2) ('"' :: p2) q hvf2 ?_ hq
                rw [ht2, List.cons_append, List.cons_append, hp2]
              simp only [hls, hex, hpf]
    · intro fs p q hval henc hq
      cases fs with
      | fnil =>
        have hpq : p ++ q = ['\x7d'] := by simpa using henc.symm
        obtain ⟨rfl, rfl⟩ := append_eq_singleton_cases hpq hq
        exact parseFields_nil _
      | fcons k v fs2 =>
        have hvparts := hval
        simp only [JFields.valid, Bool.and_eq_true] at hvparts
        obtain ⟨⟨hk, hvv⟩, hvf⟩ := hvparts
        have hqk : '"' ∉ k := not_quote_of_all_okChar hk
        cases fs2 with
        | fnil =>
          refine parseFields_prefix_front n k v ['\x7d'] p q hqk hvv
            (fun p2 q2 hnum h2 h3 => ih.1 v p2 q2 hvv hnum h2 h3) ?_ ?_ ?_ hq
          · intro c t h
            injection h with h1 _
            subst h1
            decide
          · intro e he
            obtain ⟨rfl, rfl⟩ := append_eq_singleton_cases he.symm hq
            simp only [lstrip_nil, expectChar_nil]
          · rw [← henc]
            simp [JFields.encInner, List.cons_append, List.append_assoc]
        | fcons k2 v2 fs3 =>
          refine parseFields_prefix_front n k v
            (',' :: ' ' :: (JFields.encInner (.fcons k2 v2 fs3) ++ ['\x7d'])) p q hqk hvv
            (fun p2 q2 hnum h2 h3 => ih.1 v p2 q2 hvv hnum h2 h3) ?_ ?_ ?_ hq
          · intro c t h
            injection h with h1 _
            subst h1
            decide
          · intro e he
            rcases append_eq_cons_cases he.symm with ⟨rfl, rfl⟩ | ⟨e2, rfl, he2⟩
            · simp only [lstrip_nil, expectChar_nil]
            · have hlse : lstrip (',' :: e2) = ',' :: e2 := lstrip_cons_not _ (by decide)
              have hexb : expectChar '\x7d' (',' :: e2) = none :=
                expectChar_cons_ne _ _ _ (by decide)
              simp only [hlse, hexb, expectChar_cons_self]
              rcases append_eq_cons_cases he2 with ⟨rfl, rfl⟩ | ⟨e3, rfl, he3⟩
              · simp only [lstrip_nil, parseFields_nil]
              · have hlse3 : lstrip (' ' :: e3) = lstrip e3 := lstrip_cons_ws _ (by decide)
                obtain ⟨t3, ht3⟩ := encInner_cons_head k2 v2 fs3
                rcases append_eq_cons_cases
                    (show e3 ++ q = '"' :: (t3 ++ ['\x7d']) from by
                      rw [he3, ht3, List.cons_append]) with ⟨rfl, rfl⟩ | ⟨e4, rfl, he4⟩
                · simp only [hlse3, lstrip_nil, parseFields_nil]
                · have hls4 : lstrip ('"' :: e4) = '"' :: e4 := lstrip_cons_not _ (by decide)
                  have hpf2 : parseFields n ('"' :: e4) = none := by
                    refine ih.2 (.fcons k2 v2 fs3) ('"' :: e4) q hvf ?_ hq
                    rw [ht3, List.cons_append, List.cons_append, he4]
                  simp only [hlse3, hls4, hpf2]
          · rw [← henc]
            simp [JFields.encInner, List.cons_append, List.append_assoc]

theorem JoinEnc_nil : JoinEnc [] = [] := rfl

theorem JoinEnc_cons (v : JVal) (vs : List JVal) :
    JoinEnc (v :: vs) = JVal.enc v ++ JoinEnc vs := by
  simp [JoinEnc]

theorem not_num_of_isObjV {v : JVal} (h : isObjV v = true) : ∀ m, v ≠ JVal.jnum m := by
  intro m hcon
  subst hcon
  simp [isObjV] at h

theorem drainLoop_spec : ∀ todo p q fuelL,
    (∀ v ∈ todo, JVal.valid v = true ∧ isObjV v = true) →
    p ++ q = JoinEnc todo → p.length < fuelL →
    ∃ done more r,
      todo = done ++ more ∧ p = JoinEnc done ++ r ∧ r ++ q = JoinEnc more ∧
      (more = [] → r = []) ∧
      (∀ m ms, more = m :: ms → ∃ t, t ≠ [] ∧ JVal.enc m = r ++ t) ∧
      drainLoop fuelL p = (done, r) := by
  intro todo
  induction todo with
  | nil =>
    intro p q fuelL _ hpq hlen
    obtain ⟨hp, hq⟩ := List.append_eq_nil.mp (by simpa [JoinEnc_nil] using hpq)
    subst hp
    subst hq
    cases fuelL with
    | zero => omega
    | succ f =>
      refine ⟨[], [], [], rfl, rfl, by simpa using hpq, fun _ => rfl,
        fun m ms hcon => List.noConfusion hcon, ?_⟩
      simp only [drainLoop, lstrip_nil]
      have : rawDecode [] = none := rfl
      rw [this]
  | cons v todo2 ih =>
    intro p q fuelL hva hpq hlen
    have hv := hva v (List.mem_cons_self v todo2)
    have hva2 : ∀ w ∈ todo2, JVal.valid w = true ∧ isObjV w = true :=
      fun w hw => hva w (List.mem_cons_of_mem v hw)
    rw [JoinEnc_cons] at hpq
    cases fuelL with
    | zero => omega
    | succ f =>
      rcases append_split_strict hpq with ⟨b, hb1, hb2, hb3⟩ | ⟨e, he1, he2⟩
      · -- p is a strict prefix of the encoding of v
        have hlsp : lstrip p = p := by
          cases p with
          | nil => rfl
          | cons c t =>
            exact lstrip_cons_not _
              (enc_head_not_ws v c (t ++ b) (by rw [hb1, List.cons_append]))
        have hrd : rawDecode p = none :=
          (parse_prefix_fail _).1 v p b hv.1 (not_num_of_isObjV hv.2) hb1 hb2
        refine ⟨[], v :: todo2, p, rfl, by simp [JoinEnc_nil], ?_, ?_, ?_, ?_⟩
        · rw [JoinEnc_cons]
          exact hpq
        · intro hcon
          exact List.noConfusion hcon
        · intro m ms hcon
          injection hcon with hm hms
          subst hm
          exact ⟨b, hb2, hb1⟩
        · simp only [drainLoop, hlsp, hrd]
      · -- p consumes the whole encoding of v and continues with e
        subst he1
        have hlsp : lstrip (JVal.enc v ++ e) = JVal.enc v ++ e := lstrip_enc v e
        have hrd : rawDecode (JVal.enc v ++ e) = some (v, e) :=
          rawDecode_enc v e hv.1 (fun m hm => absurd hm (not_num_of_isObjV hv.2 m))
        have hlene : e.length < f := by
          have h1 : (JVal.enc v).length ≠ 0 := by
            intro h0
            exact enc_ne_nil v (List.length_eq_zero.mp h0)
          rw [List.length_append] at hlen
          omega
        obtain ⟨done2, more2, r2, ht2, hp2, hr2, hmr2, hpre2, hdl2⟩ :=
          ih e q f hva2 he2.symm hlene
        refine ⟨v :: done2, more2, r2, by rw [ht2, List.cons_append], ?_, hr2, hmr2, hpre2, ?_⟩
        · rw [JoinEnc_cons, hp2, List.append_assoc]
        · simp only [drainLoop, hlsp, hrd, hdl2]

theorem bufGet_bufSet_self (buf : Buffer) (qid v : Str) :
    bufGet (bufSet buf qid v) qid = some v := by
  induction buf with
  | nil => simp [bufSet, bufGet]
  | cons e rest ih =>
    obtain ⟨k, w⟩ := e
    by_cases hk : k = qid
    · subst hk
      simp [bufSet, bufGet]
    · simp [bufSet, bufGet, hk, ih]

theorem bufGet_bufSet_other (buf : Buffer) (qid v k : Str) (h : k ≠ qid) :
    bufGet (bufSet buf qid v) k = bufGet buf k := by
  have h2 : ¬ (qid = k) := fun hh => h hh.symm
  induction buf with
  | nil => simp [bufSet, bufGet, h2]
  | cons e rest ih =>
    obtain ⟨k2, w⟩ := e
    by_cases hk : k2 = qid
    · subst hk
      simp [bufSet, bufGet, h2]
    · simp [bufSet, bufGet, hk, ih]

theorem processChunks_json_spec (dlr : DlReply) (qid : Str) (he : dlr.error = 0)
    (hs : dlr.status < 300) (hct : dlr.contentType = some jsonCT) :
    ∀ cs more r buf,
      (∀ v ∈ more, JVal.valid v = true ∧ isObjV v = true) →
      r ++ cs.flatten = JoinEnc more →
      (∀ m ms, more = m :: ms → ∃ t, t ≠ [] ∧ JVal.enc m = r ++ t) →
      (bufGet buf qid = some r ∨ (bufGet buf qid = none ∧ r = [])) →
      (processChunks dlr buf qid cs).1 = more.map DlEvent.json := by
  intro cs
  induction cs with
  | nil =>
    intro more r buf hva hjoin hpre hbuf
    cases more with
    | nil => rfl
    | cons m ms =>
      exfalso
      obtain ⟨t, htne, hmt⟩ := hpre m ms rfl
      rw [List.flatten_nil, List.append_nil, JoinEnc_cons] at hjoin
      have h1 := congrArg List.length hjoin
      have h2 := congrArg List.length hmt
      rw [List.length_append] at h1 h2
      have h3 : t.length ≠ 0 := fun h0 => htne (List.length_eq_zero.mp h0)
      omega
  | cons c cs2 ihc =>
    intro more r buf hva hjoin hpre hbuf
    have hcontent : (match bufGet buf qid with
        | some b => b ++ c
        | none => c) = r ++ c := by
      rcases hbuf with hb | ⟨hb, rfl⟩
      · rw [hb]
      · rw [hb]
        rfl
    have hpdp : processDownloadProgress dlr buf qid c =
        ((drainLoop ((r ++ c).length + 1) (r ++ c)).1.map DlEvent.json,
         bufSet buf qid (drainLoop ((r ++ c).length + 1) (r ++ c)).2) := by
      unfold processDownloadProgress
      rw [if_neg (by simp [he]), if_neg (by omega), if_pos hct, hcontent]
    obtain ⟨done, more2, r2, ht, hp, hr, hm2, hpre2, hdl⟩ :=
      drainLoop_spec more (r ++ c) cs2.flatten ((r ++ c).length + 1) hva
        (by rw [List.append_assoc, ← List.flatten_cons]; exact hjoin)
        (by omega)
    have hva2 : ∀ w ∈ more2, JVal.valid w = true ∧ isObjV w = true :=
      fun w hw => hva w (ht ▸ List.mem_append_right done hw)
    have hrec := ihc more2 r2 (bufSet buf qid r2) hva2 hr hpre2
      (Or.inl (bufGet_bufSet_self buf qid r2))
    show (processChunks dlr buf qid (c :: cs2)).1 = _
    simp only [processChunks, hpdp, hdl, hrec]
    rw [ht, List.map_append]

theorem encNumCore_ascii : ∀ fuel n,
    (encNumCore fuel n).all (fun c => decide (c.toNat < 128)) = true := by
  intro fuel
  induction fuel with
  | zero => intro n; rfl
  | succ f ih =>
    intro n
    by_cases h0 : n = 0
    · subst h0; rfl
    · simp only [encNumCore, if_neg h0, List.all_append, Bool.and_eq_true]
      refine ⟨ih _, ?_⟩
      have h10 : n % 10 < 10 := Nat.mod_lt _ (by norm_num)
      interval_cases h : (n % 10) <;> decide

theorem encNum_ascii (n : Nat) :
    (encNum n).all (fun c => decide (c.toNat < 128)) = true := by
  by_cases h0 : n = 0
  · subst h0; rfl
  · simp only [encNum, if_neg h0]
    exact encNumCore_ascii (n + 1) n

theorem all_ascii_of_okChar (s : Str) (h : s.all okChar = true) :
    s.all (fun c => decide (c.toNat < 128)) = true := by
  apply List.all_eq_true.mpr
  intro c hc
  have h2 := List.all_eq_true.mp h c hc
  simp only [okChar, Bool.and_eq_true, decide_eq_true_eq] at h2
  simp only [decide_eq_true_eq]
  omega

mutual

theorem enc_ascii : ∀ v : JVal, JVal.valid v = true →
    (JVal.enc v).all (fun c => decide (c.toNat < 128)) = true
  | .jnum m, _ => encNum_ascii m
  | .jstr s, hv => by
    have h2 := all_ascii_of_okChar s (by simpa [JVal.valid] using hv)
    simp [JVal.enc, h2]
  | .jobj fs, hv => by
    have h2 := encInner_ascii fs (by simpa [JVal.valid] using hv)
    simp [JVal.enc, h2]

theorem encInner_ascii : ∀ fs : JFields, JFields.valid fs = true →
    (JFields.encInner fs).all (fun c => decide (c.toNat < 128)) = true
  | .fnil, _ => rfl
  | .fcons k v .fnil, hv => by
    have hparts : k.all okChar = true ∧ JVal.valid v = true := by
      simpa [JFields.valid, Bool.and_eq_true] using hv
    have h2 := all_ascii_of_okChar k hparts.1
    have h3 := enc_ascii v hparts.2
    simp [JFields.encInner, h2, h3]
  | .fcons k v (.fcons k2 v2 fs2), hv => by
    have hparts : (k.all okChar = true ∧ JVal.valid v = true) ∧
        JFields.valid (.fcons k2 v2 fs2) = true := by
      simpa [JFields.valid, Bool.and_eq_true, and_assoc] using hv
    have h2 := all_ascii_of_okChar k hparts.1.1
    have h3 := enc_ascii v hparts.1.2
    have h4 := encInner_ascii (.fcons k2 v2 fs2) hparts.2
    simp [JFields.encInner, h2, h3, h4]

end

theorem byteLen_eq_length_of_ascii (s : Str)
    (h : s.all (fun c => decide (c.toNat < 128)) = true) : byteLen s = s.length := by
  induction s with
  | nil => rfl
  | cons c t ih =>
    simp only [List.all_cons, Bool.and_eq_true, decide_eq_true_eq] at h
    have h2 := ih h.2
    simp only [byteLen, List.map_cons, List.sum_cons, utf8Len, if_pos h.1, List.length_cons]
    simp only [byteLen] at h2
    omega

theorem byteLen_enc (v : JVal) (hv : JVal.valid v = true) :
    byteLen (JVal.enc v) = (JVal.enc v).length :=
  byteLen_eq_length_of_ascii _ (enc_ascii v hv)

theorem not_percent_of_isIPv6 {s : Str} (h : isIPv6 s = true) : '%' ∉ s := by
  intro hm
  simp only [isIPv6, Bool.and_eq_true] at h
  have h4 := List.all_eq_true.mp h.1.2 '%' hm
  simp [isHexDigit, isDigit] at h4

/-- C10: a call to the public dispatch entry point createHTTPQuery that
omits the body argument uses the default body, an empty mapping, so the
request carries Content-Type application/json, Content-Length 2 and the
two-byte payload of an open and a close brace, rather than being sent
body-less with no content headers. -/
theorem C10_default_body :
    createHTTPQueryDefaultBody = QBody.dict .fnil ∧
    addBodyToRequest createHTTPQueryDefaultBody =
      some ⟨"application/json".toList, some ("2".toList), some ("\x7b\x7d".toList)⟩ ∧
    byteLen ("\x7b\x7d".toList) = 2 := by
  refine ⟨rfl, ?_, rfl⟩
  rfl

/-- C6: for every structured-mapping body the codec emits a payload that
round-trips (decoding the emitted bytes as JSON reproduces the original
mapping), sets Content-Type application/json, and sets a Content-Length
equal to the byte length of the encoded payload. -/
theorem C6_body_roundtrip (fs : JFields) (hv : JFields.valid fs = true)
    (_hnd : (fieldsKeys fs).Nodup) :
    ∃ payload,
      addBodyToRequest (.dict fs) =
        some ⟨"application/json".toList, some (encNum (byteLen payload)), some payload⟩ ∧
      loads payload = some (.jobj fs) := by
  refine ⟨JVal.enc (.jobj fs), ?_, loads_enc _ hv⟩
  have hb : byteLen (JVal.enc (.jobj fs)) = (JVal.enc (.jobj fs)).length :=
    byteLen_enc (.jobj fs) hv
  simp [addBodyToRequest, hb]

theorem C6_body_roundtrip_witness :
    ∃ payload,
      addBodyToRequest (.dict (.fcons ("a".toList) (.jnum 1) .fnil)) =
        some ⟨"application/json".toList, some (encNum (byteLen payload)), some payload⟩ ∧
      loads payload = some (.jobj (.fcons ("a".toList) (.jnum 1) .fnil)) :=
  C6_body_roundtrip (.fcons ("a".toList) (.jnum 1) .fnil) (by decide) (by decide)

/-- C9: a configured host whose zone-stripped form (everything before
the last percent sign) parses as an IPv6 literal appears in the
constructed URL in bracketed form with the zone id discarded and no
residual percent sign, while a host that does not parse as IPv6 is used
unchanged; the URL places that host form between the protocol and the
port. -/
theorem C9_ipv6_bracketing (host : Str) :
    (isIPv6 (stripZone host) = true →
      hostForUrl host = '[' :: stripZone host ++ [']'] ∧ '%' ∉ hostForUrl host) ∧
    (isIPv6 (stripZone host) = false → hostForUrl host = host) ∧
    ∀ protocol port path,
      buildUrl protocol none host port path =
        protocol ++ "://".toList ++ hostForUrl host ++ ':' :: encNum port ++
          "/v2".toList ++ path := by
  refine ⟨?_, ?_, ?_⟩
  · intro h
    refine ⟨by simp [hostForUrl, h], ?_⟩
    simp only [hostForUrl, h, if_true]
    intro hm
    rcases List.mem_cons.mp hm with h1 | hm2
    · exact absurd h1 (by decide)
    · rcases List.mem_append.mp hm2 with h2 | h3
      · exact not_percent_of_isIPv6 h h2
      · exact absurd (List.mem_singleton.mp h3) (by decide)
  · intro h
    simp [hostForUrl, h]
  · intro protocol port path
    simp [buildUrl]

theorem C9_ipv6_bracketing_witness :
    hostForUrl ("fe80::1%eth0".toList) = "[fe80::1]".toList ∧
    hostForUrl ("example.com".toList) = "example.com".toList := by
  constructor
  · have h := ((C9_ipv6_bracketing ("fe80::1%eth0".toList)).1 (by decide)).1
    rw [h]
    decide
  · exact (C9_ipv6_bracketing ("example.com".toList)).2.1 (by decide)

/-- C2: in handshake validation with a bootstrap body carrying a version
string and a local field: equal client and server version strings never
signal VersionMismatch; a stable client build (4th version component 0)
signals VersionMismatch whenever the strings differ in any way;
differing first two parsed components always signal VersionMismatch even
for non-stable builds; and a non-stable build whose first two parsed
components agree with the server's never signals VersionMismatch (a
warning only). -/
theorem C2_version_gate (params : JFields) (cv sv : Str) (info3 : Nat)
    (pv : Str → List Nat) (w : JVal)
    (hver : fieldsLookupLast versionKey params = some (.jstr sv))
    (hloc : fieldsLookupLast localKey params = some w) :
    (sv = cv → callbackConnect false params cv info3 pv ≠ .versionMismatch) ∧
    (info3 = 0 → sv ≠ cv → callbackConnect false params cv info3 pv = .versionMismatch) ∧
    ((pv cv).take 2 ≠ (pv sv).take 2 →
      callbackConnect false params cv info3 pv = .versionMismatch) ∧
    (info3 ≠ 0 → (pv cv).take 2 = (pv sv).take 2 →
      callbackConnect false params cv info3 pv ≠ .versionMismatch) := by
  have hcb : callbackConnect false params cv info3 pv =
      (if sv = cv then .proceed false
       else if info3 = 0 then .versionMismatch
       else if (pv cv).take 2 ≠ (pv sv).take 2 then .versionMismatch
       else .proceed true) := by
    simp [callbackConnect, hver, hloc]
  refine ⟨?_, ?_, ?_, ?_⟩
  · intro he
    rw [hcb, if_pos he]
    simp
  · intro h0 hne
    rw [hcb, if_neg hne, if_pos h0]
  · intro htk
    have hne : sv ≠ cv := by
      intro he
      subst he
      exact htk rfl
    by_cases h0 : info3 = 0
    · rw [hcb, if_neg hne, if_pos h0]
    · rw [hcb, if_neg hne, if_neg h0, if_pos htk]
  · intro h0 htk
    by_cases he : sv = cv
    · rw [hcb, if_pos he]
      simp
    · rw [hcb, if_neg he, if_neg h0, if_neg (by simpa using htk)]
      simp

theorem C2_version_gate_witness :
    callbackConnect false
      (.fcons versionKey (.jstr ("2.1.0".toList))
        (.fcons localKey (.jstr ("t".toList)) .fnil))
      ("2.1.0".toList) 0 (fun s => [s.length]) ≠ .versionMismatch ∧
    callbackConnect false
      (.fcons versionKey (.jstr ("2.1.1".toList))
        (.fcons localKey (.jstr ("t".toList)) .fnil))
      ("2.1.0".toList) 0 (fun s => [s.length]) = .versionMismatch :=
  ⟨(C2_version_gate _ ("2.1.0".toList) ("2.1.0".toList) 0 (fun s => [s.length])
      (.jstr ("t".toList)) (by decide) (by decide)).1 rfl,
   (C2_version_gate _ ("2.1.0".toList) ("2.1.1".toList) 0 (fun s => [s.length])
      (.jstr ("t".toList)) (by decide) (by decide)).2.1 rfl (by decide)⟩

/-- C7 amended: with no bootstrap error, ProtocolMismatch is signaled
precisely when the decoded body lacks the version field or lacks the
local field; the source tests the two conditions with or, so a body
carrying a version field but no local field is still rejected at this
step. -/
theorem C7_amended_protocol_mismatch (params : JFields) (cv : Str) (info3 : Nat)
    (pv : Str → List Nat) :
    callbackConnect false params cv info3 pv = .protocolMismatch ↔
      (fieldsLookupLast versionKey params = none ∨
       fieldsLookupLast localKey params = none) := by
  rcases hv : fieldsLookupLast versionKey params with _ | v
  · simp [callbackConnect, hv]
  · rcases hl : fieldsLookupLast localKey params with _ | w
    · simp [callbackConnect, hv, hl]
    · simp only [callbackConnect, hv, hl, Option.isNone_some, Bool.false_eq_true, or_self,
        if_false]
      constructor
      · intro hcon
        exfalso
        cases v with
        | jnum m =>
          by_cases h0 : info3 = 0 <;> simp [h0] at hcon
        | jstr s =>
          by_cases he : s = cv
          · simp [he] at hcon
          · by_cases h0 : info3 = 0
            · simp [he, h0] at hcon
            · by_cases htk : (pv cv).take 2 ≠ (pv s).take 2 <;>
                simp [he, h0, htk] at hcon
        | jobj fs =>
          by_cases h0 : info3 = 0 <;> simp [h0] at hcon
      · intro hcon
        simp at hcon

/-- C7 counterexample: a bootstrap body that contains a version field
but lacks the local field is rejected with ProtocolMismatch, refuting
the claim that the signal occurs precisely when both fields are absent
and that a body with a version field proceeds past this step. -/
theorem C7_counterexample :
    callbackConnect false (.fcons versionKey (.jstr ("2.1.0".toList)) .fnil)
      ("2.1.0".toList) 0 (fun _ => []) = .protocolMismatch ∧
    fieldsLookupLast versionKey
      (.fcons versionKey (.jstr ("2.1.0".toList)) .fnil) ≠ none := by
  constructor <;> decide

/-- C4: a completion reporting a transport failure before any HTTP
response (error code nonzero and below the 200 threshold), with
ignoreErrors unset and a callback configured, resets the connected flag
from true to false and invokes the callback exactly once with the error
flag set and the transport's non-empty message; no exception escapes and
nothing is raised. -/
theorem C4_transport_error_close (r : Reply)
    (herr : r.error ≠ 0) (hlow : r.error < 200) (hmsg : r.errorString ≠ []) :
    (processResponse true true false r).connected = false ∧
    (processResponse true true false r).calls = [.err (msgObj r.errorString)] ∧
    r.errorString ≠ [] ∧
    (processResponse true true false r).outcome = .done none := by
  refine ⟨?_, ?_, hmsg, ?_⟩ <;> simp [processResponse, herr, hlow]

theorem C4_transport_error_close_witness :
    (processResponse true true false ⟨5, "boom".toList, 0, none, none⟩).connected = false ∧
    (processResponse true true false ⟨5, "boom".toList, 0, none, none⟩).calls =
      [.err (msgObj ("boom".toList))] :=
  ⟨(C4_transport_error_close ⟨5, "boom".toList, 0, none, none⟩
      (by decide) (by decide) (by decide)).1,
   (C4_transport_error_close ⟨5, "boom".toList, 0, none, none⟩
      (by decide) (by decide) (by decide)).2.1⟩

/-- C1 counterexample: a success-status completion whose body is
labelled application/json but fails to parse as JSON lets the decode
exception escape the completion handler with no callback invocation at
all, refuting the claim that such a response still yields one callback
with a graceful generic result. -/
theorem C1_counterexample :
    (processResponse true true false
      ⟨0, [], 200, some ("\x7b".toList), some jsonCT⟩).outcome = .exn ∧
    (processResponse true true false
      ⟨0, [], 200, some ("\x7b".toList), some jsonCT⟩).calls = [] := by
  constructor <;> rfl

/-- C1 amended: with a callback configured, transport errors taken with
ignoreErrors unset, and excluding the one unprotected path (no
transport error flag, body present and not whitespace-only, labelled
application/json, yet unparseable, where the decode exception escapes
and no callback runs), the completion handler invokes the callback
exactly once, terminates normally, and the only raise it issues is the
HttpBadRequest of a completion whose status is exactly 400. -/
theorem C1_amended_single_callback (conn ig : Bool) (r : Reply)
    (hig : r.error ≠ 0 → r.error < 200 → ig = false)
    (hparse : r.error = 0 → successParams r ≠ none) :
    (processResponse conn true ig r).calls.length = 1 ∧
    (processResponse conn true ig r).outcome ≠ .exn ∧
    ∀ b, (processResponse conn true ig r).outcome = .done (some b) → r.status = 400 := by
  by_cases h0 : r.error = 0
  · rcases hsp : successParams r with _ | params
    · exact absurd hsp (hparse h0)
    · have hpr : processResponse conn true ig r =
          ⟨conn, (if 400 ≤ r.status then [.err params] else [.ok params r.body]),
           .done (if r.status = 400 then some (mkBadReq r.body) else none)⟩ := by
        simp [processResponse, h0, hsp]
      refine ⟨?_, ?_, ?_⟩
      · rw [hpr]
        show (if 400 ≤ r.status then [CbCall.err params]
              else [CbCall.ok params r.body]).length = 1
        split <;> rfl
      · rw [hpr]
        show Outcome.done _ ≠ Outcome.exn
        simp
      · intro b hb
        rw [hpr] at hb
        by_cases hst : r.status = 400
        · exact hst
        · simp [hst] at hb
  · by_cases hlow : r.error < 200
    · have hig2 := hig h0 hlow
      subst hig2
      have hpr : processResponse conn true false r =
          ⟨false, [.err (msgObj r.errorString)], .done none⟩ := by
        simp [processResponse, h0, hlow]
      rw [hpr]
      refine ⟨rfl, by simp, ?_⟩
      intro b hb
      simp at hb
    · have hpr : processResponse conn true ig r =
          ⟨conn, [.err (errorBranchArg r)],
           .done (if r.status = 400 then some (mkBadReq r.body) else none)⟩ := by
        simp [processResponse, h0, hlow]
      rw [hpr]
      refine ⟨rfl, by simp, ?_⟩
      intro b hb
      by_cases hst : r.status = 400
      · exact hst
      · simp [hst] at hb

theorem C1_amended_single_callback_witness :
    (processResponse true true false
      ⟨0, [], 200, some ("\x7b\x7d".toList), some jsonCT⟩).calls.length = 1 :=
  (C1_amended_single_callback true false ⟨0, [], 200, some ("\x7b\x7d".toList), some jsonCT⟩
    (fun h _ => absurd rfl h) (fun _ => by decide)).1

/-- C3 counterexample: a completion resolving to HTTP status exactly
400 with no transport-error flag and a non-whitespace body labelled
application/json that fails to parse as JSON makes the unguarded decode
of the success branch raise out of the handler: no callback is
delivered and no HttpBadRequest is raised at all, refuting the claim
that a fingerprint-extraction failure always results in a generic
bad-request signal raised after the callback. -/
theorem C3_counterexample :
    extractFingerprint (some ("\x7b".toList)) = none ∧
    (processResponse true true false
      ⟨0, [], 400, some ("\x7b".toList), some jsonCT⟩).outcome = .exn ∧
    (processResponse true true false
      ⟨0, [], 400, some ("\x7b".toList), some jsonCT⟩).calls = [] := by
  refine ⟨rfl, rfl, rfl⟩

/-- C3 amended: a completion resolving to HTTP status exactly 400 whose
JSON body carries the path /some/fingerprint first invokes the callback
once with the error flag and the parsed body, and afterwards the
handler raises HttpBadRequest carrying that fingerprint; when
fingerprint extraction from the body fails, the raised signal carries
no fingerprint instead and still follows a single callback — except on
the one unprotected path (no transport-error flag, present
non-whitespace body labelled application/json that fails to parse),
where the decode exception escapes the handler with no callback and no
bad-request signal; whenever the signal is raised it leaves the
delivered callback invocation in place. -/
theorem C3_bad_request_fingerprint :
    (∀ (conn ig : Bool) (r : Reply),
      r.status = 400 →
      r.body = some ("\x7b\"path\": \"/some/fingerprint\"\x7d".toList) →
      r.contentType = some jsonCT →
      (r.error = 0 ∨ 200 ≤ r.error) →
      (processResponse conn true ig r).calls =
        [.err (.jobj (.fcons pathKey (.jstr ("/some/fingerprint".toList)) .fnil))] ∧
      (processResponse conn true ig r).outcome =
        .done (some ⟨r.body, some (.jstr ("/some/fingerprint".toList))⟩)) ∧
    (∀ (conn ig : Bool) (r : Reply),
      r.status = 400 →
      (r.error = 0 ∨ 200 ≤ r.error) →
      (r.error = 0 → successParams r ≠ none) →
      extractFingerprint r.body = none →
      (processResponse conn true ig r).outcome = .done (some ⟨r.body, none⟩) ∧
      (processResponse conn true ig r).calls.length = 1) ∧
    (∀ (conn ig : Bool) (r : Reply),
      r.error = 0 →
      successParams r = none →
      (processResponse conn true ig r).outcome = .exn ∧
      (processResponse conn true ig r).calls = []) := by
  refine ⟨?_, ?_, ?_⟩
  · intro conn ig r hst hb hct herr
    have hload : loads ("\x7b\"path\": \"/some/fingerprint\"\x7d".toList) =
        some (.jobj (.fcons pathKey (.jstr ("/some/fingerprint".toList)) .fnil)) := by rfl
    have hfp : extractFingerprint r.body =
        some (.jstr ("/some/fingerprint".toList)) := by
      rw [hb]
      rfl
    rcases herr with h0 | h200
    · have hsp : successParams r =
          some (.jobj (.fcons pathKey (.jstr ("/some/fingerprint".toList)) .fnil)) := by
        simp only [successParams, hb]
        rw [hct, if_pos ⟨by decide, rfl⟩]
        exact hload
      have hpr : processResponse conn true ig r =
          ⟨conn, [.err (.jobj (.fcons pathKey (.jstr ("/some/fingerprint".toList)) .fnil))],
           .done (some (mkBadReq r.body))⟩ := by
        simp [processResponse, h0, hsp, hst]
      rw [hpr]
      exact ⟨rfl, by simp [mkBadReq, hfp]⟩
    · have herr0 : r.error ≠ 0 := by omega
      have hnl : ¬ r.error < 200 := by omega
      have harg : errorBranchArg r =
          .jobj (.fcons pathKey (.jstr ("/some/fingerprint".toList)) .fnil) := by
        simp only [errorBranchArg, hb, hct]
        rw [if_neg (by decide), hload]
      have hpr : processResponse conn true ig r =
          ⟨conn, [.err (errorBranchArg r)], .done (some (mkBadReq r.body))⟩ := by
        simp [processResponse, herr0, hnl, hst]
      rw [hpr, harg]
      exact ⟨rfl, by simp [mkBadReq, hfp]⟩
  · intro conn ig r hst herr hsp hfp
    rcases herr with h0 | h200
    · rcases hspv : successParams r with _ | params
      · exact absurd hspv (hsp h0)
      · have hpr : processResponse conn true ig r =
            ⟨conn, [.err params], .done (some (mkBadReq r.body))⟩ := by
          simp [processResponse, h0, hspv, hst]
        rw [hpr]
        refine ⟨?_, rfl⟩
        simp [mkBadReq, hfp]
    · have herr0 : r.error ≠ 0 := by omega
      have hnl : ¬ r.error < 200 := by omega
      have hpr : processResponse conn true ig r =
          ⟨conn, [.err (errorBranchArg r)], .done (some (mkBadReq r.body))⟩ := by
        simp [processResponse, herr0, hnl, hst]
      rw [hpr]
      refine ⟨?_, rfl⟩
      simp [mkBadReq, hfp]
  · intro conn ig r h0 hsp
    simp [processResponse, h0, hsp]

theorem C3_bad_request_fingerprint_witness :
    (processResponse true true false
      ⟨0, [], 400, some ("\x7b\"path\": \"/some/fingerprint\"\x7d".toList),
       some jsonCT⟩).outcome =
      .done (some ⟨some ("\x7b\"path\": \"/some/fingerprint\"\x7d".toList),
        some (.jstr ("/some/fingerprint".toList))⟩) ∧
    (processResponse true true false
      ⟨0, [], 400, some ("\x7b\x7d".toList), some jsonCT⟩).outcome =
      .done (some ⟨some ("\x7b\x7d".toList), none⟩) ∧
    (processResponse true true false
      ⟨0, [], 400, some ("\x7b\"".toList), some jsonCT⟩).outcome = .exn :=
  ⟨(C3_bad_request_fingerprint.1 true false
      ⟨0, [], 400, some ("\x7b\"path\": \"/some/fingerprint\"\x7d".toList), some jsonCT⟩
      rfl rfl rfl (Or.inl rfl)).2,
   (C3_bad_request_fingerprint.2.1 true false
      ⟨0, [], 400, some ("\x7b\x7d".toList), some jsonCT⟩
      rfl (Or.inl rfl) (fun _ => by decide) (by decide)).1,
   (C3_bad_request_fingerprint.2.2 true false
      ⟨0, [], 400, some ("\x7b\"".toList), some jsonCT⟩
      rfl (by decide)).1⟩

/-- C8 counterexample: processing one chunk holding a complete empty
object leaves a buffer entry for the query id that maps to the empty
fragment: the entry is created even though the decode pass left no
undecoded remainder, and it is not deleted, refuting the claim that
after every chunk-processing step every key present maps to a non-empty
undecoded fragment. -/
theorem C8_counterexample :
    bufGet (processDownloadProgress ⟨0, 200, some jsonCT⟩ [] ("q".toList)
      ("\x7b\x7d".toList)).2 ("q".toList) = some [] ∧
    (processDownloadProgress ⟨0, 200, some jsonCT⟩ [] ("q".toList)
      ("\x7b\x7d".toList)).1 = [.json (.jobj .fnil)] := by
  constructor <;> rfl

/-- C8 amended: on every JSON chunk-processing step the handler stores
the decode loop's undecoded remainder, which may be empty, back into the
buffer under the query id: afterwards the key is always present and maps
to that remainder, while entries for other query ids are untouched;
entries are never deleted. -/
theorem C8_amended_buffer_persistence (dlr : DlReply) (buf : Buffer) (qid chunk : Str)
    (he : dlr.error = 0) (hs : dlr.status < 300) (hct : dlr.contentType = some jsonCT) :
    bufGet (processDownloadProgress dlr buf qid chunk).2 qid =
      some (drainLoop
        (((match bufGet buf qid with
           | some b => b ++ chunk
           | none => chunk) : Str).length + 1)
        (match bufGet buf qid with
         | some b => b ++ chunk
         | none => chunk)).2 ∧
    ∀ k, k ≠ qid →
      bufGet (processDownloadProgress dlr buf qid chunk).2 k = bufGet buf k := by
  have hpd : (processDownloadProgress dlr buf qid chunk).2 =
      bufSet buf qid (drainLoop
        (((match bufGet buf qid with
           | some b => b ++ chunk
           | none => chunk) : Str).length + 1)
        (match bufGet buf qid with
         | some b => b ++ chunk
         | none => chunk)).2 := by
    simp [processDownloadProgress, he, hct, Nat.not_le.mpr hs]
  rw [hpd]
  exact ⟨bufGet_bufSet_self _ _ _, fun k hk => bufGet_bufSet_other _ _ _ _ hk⟩

theorem C8_amended_buffer_persistence_witness :
    bufGet (processDownloadProgress ⟨0, 200, some jsonCT⟩ [] ("q".toList)
      ("\x7b".toList)).2 ("q".toList) = some ("\x7b".toList) :=
  (C8_amended_buffer_persistence ⟨0, 200, some jsonCT⟩ [] ("q".toList) ("\x7b".toList)
    rfl (by decide) rfl).1.trans (by rfl)

/-- C5 counterexample: the number 123 is a single complete JSON value
whose serialized bytes are 123, yet delivering those bytes in one chunk
makes the download callback see the one value 123 while delivering the
same bytes split as 12 and 3 makes it see the two values 12 and 3:
fragmentation changes the delivered values for bare number values,
refuting invariance for arbitrary complete JSON values. -/
theorem C5_counterexample :
    JVal.enc (.jnum 123) = "123".toList ∧
    "12".toList ++ "3".toList = "123".toList ∧
    (processChunks ⟨0, 200, some jsonCT⟩ [] ("q".toList) ["123".toList]).1
      = [.json (.jnum 123)] ∧
    (processChunks ⟨0, 200, some jsonCT⟩ [] ("q".toList) ["12".toList, "3".toList]).1
      = [.json (.jnum 12), .json (.jnum 3)] := by
  refine ⟨rfl, rfl, rfl, rfl⟩

/-- C5 amended: for JSON object values the streaming decoder is
invariant under fragmentation: any chunking of the concatenated
serializations of a list of valid objects, threaded through the
per-query buffer, delivers exactly those values in order with no
duplicates and no drops, and in particular agrees with the one-chunk
delivery; bare number values are excluded (see the counterexample). -/
theorem C5_amended_fragmentation_invariance (dlr : DlReply) (qid : Str)
    (vs : List JVal) (chunks : List Str) (buf : Buffer)
    (he : dlr.error = 0) (hs : dlr.status < 300) (hct : dlr.contentType = some jsonCT)
    (hvs : ∀ v ∈ vs, JVal.valid v = true ∧ isObjV v = true)
    (hjoin : chunks.flatten = JoinEnc vs)
    (hbuf : bufGet buf qid = none) :
    (processChunks dlr buf qid chunks).1 = vs.map DlEvent.json ∧
    (processChunks dlr buf qid [JoinEnc vs]).1 = vs.map DlEvent.json := by
  constructor
  · refine processChunks_json_spec dlr qid he hs hct chunks vs [] buf hvs
      (by simpa using hjoin) ?_ (Or.inr ⟨hbuf, rfl⟩)
    intro m ms hm
    exact ⟨JVal.enc m, enc_ne_nil m, by simp⟩
  · refine processChunks_json_spec dlr qid he hs hct [JoinEnc vs] vs [] buf hvs
      (by simp) ?_ (Or.inr ⟨hbuf, rfl⟩)
    intro m ms hm
    exact ⟨JVal.enc m, enc_ne_nil m, by simp⟩

theorem C5_amended_fragmentation_invariance_witness :
    (processChunks ⟨0, 200, some jsonCT⟩ [] ("q".toList)
      ["\x7b".toList, "\x7d\x7b\x7d".toList]).1 =
      [DlEvent.json (.jobj .fnil), DlEvent.json (.jobj .fnil)] :=
  (C5_amended_fragmentation_invariance ⟨0, 200, some jsonCT⟩ ("q".toList)
    [.jobj .fnil, .jobj .fnil] ["\x7b".toList, "\x7d\x7b\x7d".toList] []
    rfl (by decide) rfl (by decide) (by decide) rfl).1
